import Mathlib

/-!
Verification development for the Subtitle-Merger repository.

The Python source (src/app.py, src/utils/common.py) is shallowly embedded
here.  Python strings are modelled as lists of characters (`PyStr`),
Python dictionaries holding subtitle entries as a structure with optional
fields (a missing field models a KeyError on access), and Python
exceptions as `Option` (none = the call raised).  The external linguistic
analyzer (src/utils/segment_analyzer.py, which wraps spacy models) is
out of the embedded core, as in the spec; it enters as an abstract
function argument returning an optional verdict, which also models the
call-site downgrade of analyzer failures to "no verdict".
-/

set_option linter.unusedVariables false

namespace SrtMerge

/-- Python strings are modelled as lists of characters. -/
abbrev PyStr := List Char

/-- ASCII whitespace recognised by the Python str.strip and str.split
methods: space, tab, newline, carriage return, vertical tab, form feed.
(Unicode-only whitespace characters are not modelled.) -/
def isPySpace (c : Char) : Bool :=
  c = ' ' || c = '\t' || c = '\n' || c = '\r' || c = '\x0b' || c = '\x0c'

/-- Model of the Python str.strip method: drop whitespace from both ends. -/
def strip (s : PyStr) : PyStr :=
  ((s.dropWhile isPySpace).reverse.dropWhile isPySpace).reverse

/-- Helper for `words`: accumulates the current (reversed) token. -/
def wordsAux : PyStr → PyStr → List PyStr
  | [], acc => if acc = [] then [] else [acc.reverse]
  | c :: cs, acc =>
    if isPySpace c then
      if acc = [] then wordsAux cs [] else acc.reverse :: wordsAux cs []
    else wordsAux cs (c :: acc)

/-- Model of the Python str.split() method with no argument: split on runs
of whitespace, no empty tokens. -/
def words (s : PyStr) : List PyStr := wordsAux s []

/-- Model of the Python expression " ".join(ws). -/
def joinSpace : List PyStr → PyStr
  | [] => []
  | [w] => w
  | w :: ws => w ++ ' ' :: joinSpace ws

/-- Model of the Python expression "\n".join(ls). -/
def joinNL : List PyStr → PyStr
  | [] => []
  | [l] => l
  | l :: ls => l ++ '\n' :: joinNL ls

/-- Model of the Python str.split(sep) method for a single-character
separator. -/
def splitCh (sep : Char) : PyStr → List PyStr
  | [] => [[]]
  | c :: cs =>
    if c = sep then [] :: splitCh sep cs
    else
      match splitCh sep cs with
      | [] => [[c]]
      | r :: rs => (c :: r) :: rs

/-- Model of the Python expression line.split("-->"): split on
non-overlapping left-to-right occurrences of the three-character
separator. -/
def splitArrow : PyStr → List PyStr
  | '-' :: '-' :: '>' :: cs => [] :: splitArrow cs
  | c :: cs =>
    match splitArrow cs with
    | [] => [[c]]
    | r :: rs => (c :: r) :: rs
  | [] => [[]]

/-- Model of the Python str.splitlines method for the line terminators
"\n", "\r" and "\r\n" (the exotic unicode terminators are not modelled):
split at each terminator and produce no trailing empty line. -/
def splitLinesGo : PyStr → PyStr → List PyStr
  | [], acc => if acc = [] then [] else [acc.reverse]
  | '\r' :: '\n' :: cs, acc => acc.reverse :: splitLinesGo cs []
  | '\n' :: cs, acc => acc.reverse :: splitLinesGo cs []
  | '\r' :: cs, acc => acc.reverse :: splitLinesGo cs []
  | c :: cs, acc => splitLinesGo cs (c :: acc)

/-- Model of the Python str.splitlines method. -/
def splitLines (s : PyStr) : List PyStr := splitLinesGo s []

/-- Boolean test that the first list is a prefix of the second. -/
def startsList : PyStr → PyStr → Bool
  | [], _ => true
  | _ :: _, [] => false
  | p :: ps, c :: cs => p = c && startsList ps cs

/-- Number of positions at which `w` occurs as a substring (occurrences at
every position are counted, including overlapping ones). -/
def occCount (w : PyStr) : PyStr → Nat
  | [] => if startsList w [] then 1 else 0
  | c :: cs => (if startsList w (c :: cs) then 1 else 0) + occCount w cs

/-- ASCII digit test (codepoints 48 to 57); this is what the strptime
format regex and (for ASCII input) str.isdigit check. -/
def isDigitCh (c : Char) : Bool := 48 ≤ c.toNat && c.toNat ≤ 57

/-- Numeric value of an ASCII digit character. -/
def digitVal (c : Char) : Nat := c.toNat - 48

/-- Value of a string of decimal digits. -/
def digitsVal (s : PyStr) : Nat := s.foldl (fun a c => a * 10 + digitVal c) 0

/-- The decimal digit character for a value below ten. -/
def digitChar : Nat → Char
  | 0 => '0' | 1 => '1' | 2 => '2' | 3 => '3' | 4 => '4'
  | 5 => '5' | 6 => '6' | 7 => '7' | 8 => '8' | _ => '9'

/-- Fuel-driven worker producing the decimal digits of a natural number. -/
def natReprGo : Nat → Nat → PyStr → PyStr
  | 0, _, acc => acc
  | fuel + 1, n, acc =>
    if n < 10 then digitChar n :: acc
    else natReprGo fuel (n / 10) (digitChar (n % 10) :: acc)

/-- Decimal representation of a natural number (fuel n+1 always suffices
since the argument shrinks by a factor of ten each step). -/
def natRepr (n : Nat) : PyStr := natReprGo (n + 1) n []

/-- Left-pad a list to the given width with the given character. -/
def leftPad (c : Char) (w : Nat) (s : PyStr) : PyStr :=
  List.replicate (w - s.length) c ++ s

/-- Model of the Python format specification f-string piece {n:0w} for an
integer n: zero-pad to total width w, the sign included for negatives,
never truncating. -/
def pyFmt (w : Nat) (n : Int) : PyStr :=
  if n < 0 then '-' :: leftPad '0' (w - 1) (natRepr (-n).toNat)
  else leftPad '0' w (natRepr n.toNat)

/-- Model of the Python expression str(n) for an integer n. -/
def intRepr (n : Int) : PyStr :=
  if n < 0 then '-' :: natRepr (-n).toNat else natRepr n.toNat

/-- Every character of the string is an ASCII digit. -/
def allDigits (s : PyStr) : Bool := s.all isDigitCh

/-- Model of the Python str.isdigit method for ASCII strings: nonempty and
all digits. -/
def pyIsDigit (s : PyStr) : Bool :=
  match s with
  | [] => false
  | _ => allDigits s

/-- Model of time_to_ms from src/app.py (the identical helper also lives in
src/utils/common.py).  The Python code parses the string with
datetime.strptime and the format "%H:%M:%S,%f".  The compiled strptime
regex accepts a one- or two-digit hour (value at most 23 when two-digit), a
one- or two-digit minute (at most 59 when two-digit), a one- or two-digit
second (the regex admits 60 and 61 but the datetime constructor then
raises, so effectively at most 59 when two-digit) and one to six
fractional digits, which are right-padded with zeros to microseconds; the
whole string must be consumed.  Failures are re-raised as ValueError,
modelled as none.  The result is
hour*3600000 + minute*60000 + second*1000 + microsecond/1000. -/
def time_to_ms (ts : PyStr) : Option Nat :=
  match splitCh ':' ts with
  | [hf, mf, rest] =>
    match splitCh ',' rest with
    | [sf, ff] =>
      if allDigits hf = true ∧ (hf.length = 1 ∨ (hf.length = 2 ∧ digitsVal hf ≤ 23)) ∧
         allDigits mf = true ∧ (mf.length = 1 ∨ (mf.length = 2 ∧ digitsVal mf ≤ 59)) ∧
         allDigits sf = true ∧ (sf.length = 1 ∨ (sf.length = 2 ∧ digitsVal sf ≤ 59)) ∧
         allDigits ff = true ∧ 1 ≤ ff.length ∧ ff.length ≤ 6 then
        some (digitsVal hf * 3600000 + digitsVal mf * 60000 + digitsVal sf * 1000
          + digitsVal ff * 10 ^ (6 - ff.length) / 1000)
      else none
    | _ => none
  | _ => none

/-- Model of ms_to_time from src/app.py.  Python divmod on integers is
floor division (Int.fdiv / Int.fmod); for an integer argument and the
constant positive divisors it never raises, so the function is total: the
defensive try/except in the source is dead for integer input.  Each field
is rendered with the format pieces {:02} / {:03}. -/
def ms_to_time (ms : Int) : PyStr :=
  let hours := ms.fdiv 3600000
  let r1 := ms.fmod 3600000
  let minutes := r1.fdiv 60000
  let r2 := r1.fmod 60000
  let seconds := r2.fdiv 1000
  let millis := r2.fmod 1000
  pyFmt 2 hours ++ ':' :: pyFmt 2 minutes ++ ':' :: pyFmt 2 seconds ++ ',' :: pyFmt 3 millis

/-- Two-digit zero-padded decimal rendering of a value below 100, used to
state claims about exact-shape timestamps. -/
def pad2 (n : Nat) : PyStr := [digitChar (n / 10), digitChar (n % 10)]

/-- Three-digit zero-padded decimal rendering of a value below 1000. -/
def pad3 (n : Nat) : PyStr := [digitChar (n / 100), digitChar (n / 10 % 10), digitChar (n % 10)]

/-- The exact textual shape HH:MM:SS,mmm claimed by the spec: two-digit
hour, minute and second fields and exactly three fractional digits. -/
def exactPattern (t : PyStr) : Bool :=
  match t with
  | [a, b, c, d, e, f, g, h, i, j, k, l] =>
    isDigitCh a && isDigitCh b && c = ':' && isDigitCh d && isDigitCh e && f = ':' &&
    isDigitCh g && isDigitCh h && i = ',' && isDigitCh j && isDigitCh k && isDigitCh l
  | _ => false

/-- An SRT subtitle entry, a Python dict with up to four keys.  A field
holding none models an absent key: reading it raises KeyError, modelled as
none at the reading function. -/
structure SubtitleEntry where
  index : Option Int := none
  start_time : Option PyStr := none
  end_time : Option PyStr := none
  text : Option PyStr := none
deriving DecidableEq

/-- The verdict returned by the external segment analyzer (the four-field
contract of the spec; the model there is a spacy pipeline, outside this
core).  Scores are modelled as rationals. -/
structure Analysis where
  is_complete_sentence : Bool
  completeness_score : ℚ
  break_naturalness : ℚ
deriving DecidableEq

/-- The analyzer collaborator: given a language code and a text it returns
a verdict, or none when the call fails (failures are downgraded to none at
the call site in src/app.py). -/
abbrev Analyzer := PyStr → PyStr → Option Analysis

/-- The options dictionary, with the defaults that each options.get call
in src/app.py supplies. -/
structure Options where
  enableDuplicateMerge : Bool := false
  maxDuplicateGap : Int := 300
  enableEndStartMerge : Bool := false
  maxEndStartGap : Int := 300
  enableBasicMerge : Bool := false
  candidateChunkSize : Int := 3
  maxMergeCount : Int := 2
  maxTextLength : Int := 50
  maxBasicGap : Int := 500
  enableSpaceMerge : Bool := false
  enableMinLengthMerge : Bool := false
  minTextLength : Int := 1
  enableMinDurationRemove : Bool := false
  minDurationMs : Int := 300
  enableSegmentAnalyzer : Bool := false
  segmentAnalyzerLanguage : PyStr := ['e', 'n']
  enableJapaneseEndingDetection : Bool := false
deriving DecidableEq

/-- Model of is_short_subtitle from src/utils/common.py: a ValueError from
either timestamp conversion is caught and turned into the answer False
(the start time is converted first). -/
def is_short_subtitle (st et : PyStr) (threshold : Int) : Bool :=
  match time_to_ms st with
  | none => false
  | some sm =>
    match time_to_ms et with
    | none => false
    | some em => decide ((em : Int) - (sm : Int) ≤ threshold)

/-- Model of the loop of parse_srt from src/app.py.  Arguments: the
remaining raw lines, the entry under construction and the accumulated text
lines.  A time line splitting into more than two parts makes the tuple
unpacking raise, hence none. -/
def parseLoop : List PyStr → SubtitleEntry → List PyStr → Option (List SubtitleEntry)
  | [], e, _ =>
    some (if strip (e.text.getD []) ≠ [] then [e] else [])
  | raw :: ls, e, tls =>
    let line := strip raw
    if line = [] then
      if strip (e.text.getD []) ≠ [] then
        match parseLoop ls {} [] with
        | none => none
        | some rest => some ({ e with text := some (joinNL tls) } :: rest)
      else parseLoop ls {} []
    else
      if e.index = none ∧ pyIsDigit line = true then
        parseLoop ls { e with index := some (digitsVal line : Int) } tls
      else if e.start_time = none ∧ 2 ≤ (splitArrow line).length then
        match splitArrow line with
        | [p1, p2] =>
          parseLoop ls { e with start_time := some (strip p1), end_time := some (strip p2) } tls
        | _ => none
      else
        let tls2 := tls ++ [line]
        parseLoop ls { e with text := some (joinNL tls2) } tls2

/-- Model of parse_srt from src/app.py. -/
def parse_srt (s : PyStr) : Option (List SubtitleEntry) :=
  parseLoop (splitLines s) {} []

/-- Model of the per-entry body of generate_srt from src/app.py: the four
lines each entry contributes; a missing key raises. -/
def generateLines : List SubtitleEntry → Option (List PyStr)
  | [] => some []
  | e :: es => do
    let ix ← e.index
    let st ← e.start_time
    let et ← e.end_time
    let tx ← e.text
    let rest ← generateLines es
    pure (intRepr ix :: (st ++ ' ' :: '-' :: '-' :: '>' :: ' ' :: et) :: tx :: [] :: rest)

/-- Model of generate_srt from src/app.py. -/
def generate_srt (es : List SubtitleEntry) : Option PyStr :=
  (generateLines es).map joinNL

/-- Model of reindex_entries from src/app.py: indices 1, 2, ... assigned
in order. -/
def reindex_entries (es : List SubtitleEntry) : List SubtitleEntry :=
  es.enum.map fun p => { p.2 with index := some ((p.1 : Int) + 1) }

/-- Model of filter_bracket_entries from src/app.py: drop entries whose
stripped text starts with a left bracket and ends with a right bracket. -/
def filter_bracket_entries : List SubtitleEntry → Option (List SubtitleEntry)
  | [] => some []
  | e :: es => do
    let tx ← e.text
    let t := strip tx
    let rest ← filter_bracket_entries es
    if t.head? = some '[' ∧ t.getLast? = some ']' then pure rest
    else pure (e :: rest)

/-- A Python falsy test for an optional string argument: None and the
empty string are falsy. -/
def optFalsy (o : Option PyStr) : Bool :=
  match o with
  | none => true
  | some [] => true
  | some (_ :: _) => false

/-- The membership test of filter_by_time_range, run over each entry. -/
def filterTimeGo (lo hi : Nat) : List SubtitleEntry → Option (List SubtitleEntry)
  | [] => some []
  | e :: es => do
    let st ← e.start_time
    let sm ← time_to_ms st
    let rest ← filterTimeGo lo hi es
    if lo ≤ sm ∧ sm ≤ hi then pure (e :: rest) else pure rest

/-- Model of filter_by_time_range from src/app.py. -/
def filter_by_time_range (es : List SubtitleEntry) (st et : Option PyStr) :
    Option (List SubtitleEntry) :=
  if optFalsy st || optFalsy et then some es
  else do
    let lo ← time_to_ms (st.getD [])
    let hi ← time_to_ms (et.getD [])
    filterTimeGo lo hi es

/-- The filtering pass of remove_short_entries: each kept entry is one for
which is_short_subtitle answers false; the two dict reads can raise. -/
def removeShortGo (thr : Int) : List SubtitleEntry → Option (List SubtitleEntry)
  | [] => some []
  | e :: es =>
    match e.start_time with
    | none => none
    | some st =>
      match e.end_time with
      | none => none
      | some et =>
        match removeShortGo thr es with
        | none => none
        | some rest =>
          if is_short_subtitle st et thr then some rest else some (e :: rest)

/-- Model of remove_short_entries from src/app.py. -/
def remove_short_entries (es : List SubtitleEntry) (o : Options) :
    Option (List SubtitleEntry) :=
  if o.enableMinDurationRemove then removeShortGo o.minDurationMs es else some es

/-- The look-ahead loop of merge_duplicate_entries: starting from the
current merged end time, count how many following entries have identical
text within the gap window, returning that count and the final end time in
milliseconds.  Note the source parses the next start time before comparing
texts, so a malformed next start raises even for different text. -/
def dupScan (maxGap : Int) (ctext : Option PyStr) (endMs : Nat) :
    List SubtitleEntry → Option (Nat × Nat)
  | [] => some (0, endMs)
  | n :: ns => do
    let nst ← n.start_time
    let nsm ← time_to_ms nst
    let gap : Int := (nsm : Int) - (endMs : Int)
    let ct ← ctext
    let nt ← n.text
    if ct = nt ∧ 0 ≤ gap ∧ gap ≤ maxGap then do
      let net ← n.end_time
      let nem ← time_to_ms net
      let r ← dupScan maxGap ctext nem ns
      pure (r.1 + 1, r.2)
    else pure (0, endMs)

/-- The outer loop of merge_duplicate_entries, formulated on the suffix of
the entry list starting at the cursor. -/
def dedupGo (maxGap : Int) : List SubtitleEntry → Option (List SubtitleEntry)
  | [] => some []
  | cur :: rest => do
    let cet ← cur.end_time
    let cem ← time_to_ms cet
    match dupScan maxGap cur.text cem rest with
    | none => none
    | some (k, endMs) =>
      if 1 ≤ k then do
        let cst ← cur.start_time
        let ct ← cur.text
        let tl ← dedupGo maxGap (rest.drop k)
        pure ({ start_time := some cst, end_time := some (ms_to_time (endMs : Int)),
                text := some ct } :: tl)
      else do
        let tl ← dedupGo maxGap rest
        pure (cur :: tl)
termination_by es => es.length
decreasing_by
  · simp only [List.length_drop, List.length_cons]; omega
  · simp only [List.length_cons]; omega

/-- Model of merge_duplicate_entries from src/app.py. -/
def merge_duplicate_entries (es : List SubtitleEntry) (maxGap : Int) :
    Option (List SubtitleEntry) :=
  dedupGo maxGap es

/-- The inner loop of merge_end_start_entries: repeatedly extend the
growing merged entry with the next entry while the gap is within the
threshold and the last word of the merged text equals the first word of
the next text; returns the final merged entry and the unconsumed
entries. -/
def boundaryExtend (maxGap : Int) (spaceMerge : Bool) :
    SubtitleEntry → List SubtitleEntry → Option (SubtitleEntry × List SubtitleEntry)
  | m, [] => some (m, [])
  | m, n :: ns =>
    match m.end_time with
    | none => none
    | some met =>
      match time_to_ms met with
      | none => none
      | some cem =>
        match n.start_time with
        | none => none
        | some nst =>
          match time_to_ms nst with
          | none => none
          | some nsm =>
            if (nsm : Int) - (cem : Int) > maxGap then some (m, n :: ns)
            else
              match m.text with
              | none => none
              | some mt =>
                match n.text with
                | none => none
                | some nt =>
                  if words (strip mt) = [] ∨ words (strip nt) = [] ∨
                      (words (strip mt)).getLast? ≠ (words (strip nt)).head? then
                    some (m, n :: ns)
                  else
                    match n.end_time with
                    | none => none
                    | some net =>
                      let nw := words (strip nt)
                      let remaining := if 1 < nw.length then joinSpace nw.tail else []
                      let joiner := if spaceMerge ∧ remaining ≠ [] then [' '] else []
                      boundaryExtend maxGap spaceMerge
                        { m with
                          end_time := some net,
                          text := some (strip mt ++ joiner ++ remaining) } ns

/-- The remaining entries returned by `boundaryExtend` form a suffix of
its input, so the outer loop of merge_end_start_entries advances. -/
theorem boundaryExtend_rem_length (maxGap : Int) (spaceMerge : Bool) :
    ∀ (l : List SubtitleEntry) (m m2 : SubtitleEntry) (rem : List SubtitleEntry),
      boundaryExtend maxGap spaceMerge m l = some (m2, rem) → rem.length ≤ l.length := by
  intro l
  induction l with
  | nil =>
    intro m m2 rem h
    rw [boundaryExtend] at h
    cases h
    simp
  | cons n ns ih =>
    intro m m2 rem h
    rw [boundaryExtend] at h
    repeat' split at h
    any_goals cases h
    any_goals simp
    exact le_trans (ih _ _ _ h) (by simp)

/-- The outer loop of merge_end_start_entries, on the suffix starting at
the cursor. -/
def boundaryLoop (maxGap : Int) (spaceMerge : Bool) : List SubtitleEntry → Option (List SubtitleEntry)
  | [] => some []
  | e :: rest =>
    match h : boundaryExtend maxGap spaceMerge e rest with
    | none => none
    | some (m, rem) =>
      match boundaryLoop maxGap spaceMerge rem with
      | none => none
      | some tl => some (m :: tl)
termination_by l => l.length
decreasing_by
  simp only [List.length_cons]
  have hle := boundaryExtend_rem_length maxGap spaceMerge _ _ _ _ h
  omega

/-- Model of merge_end_start_entries from src/app.py; the third and later
parameters (max_text_length and the variadic flags) are accepted and
unused, as in the source. -/
def merge_end_start_entries (es : List SubtitleEntry) (maxGap : Int) (spaceMerge : Bool)
    (maxTextLength : Int) (japaneseEndingDetection : Bool) : Option (List SubtitleEntry) :=
  boundaryLoop maxGap spaceMerge es

/-- Model of the join_segment_text helper from src/app.py. -/
def join_segment_text (cur nxt : PyStr) (spaceMerge : Bool) : PyStr :=
  let l := strip cur
  let r := strip nxt
  if l = [] then r
  else if r = [] then l
  else l ++ (if spaceMerge then [' '] else []) ++ r

/-- Model of the safe_analyze_segment helper from src/app.py: no call at
all when the analyzer is disabled; the abstract analyzer already returns
none on failure, matching the try/except downgrade at the call site. -/
def safe_analyze_segment (az : Analyzer) (lang : PyStr) (enabled : Bool)
    (t : PyStr) : Option Analysis :=
  if enabled then az lang t else none

/-- Model of the rounding round(x, 4) over the rationals (the Python
original rounds a float half-to-even; no claim in this development
depends on the rounded value of a nonzero score). -/
def round4 (q : ℚ) : ℚ := ((round (q * 10000) : ℤ) : ℚ) / 10000

/-- Model of the compute_candidate_score helper from src/app.py. -/
def compute_candidate_score : Option Analysis → ℚ
  | none => 0
  | some a => round4 (7 / 10 * a.completeness_score + 3 / 10 * a.break_naturalness)

/-- Model of the can_extend_merge helper from src/app.py.  The replace of
a space by nothing is a filter dropping exactly the space character. -/
def can_extend_merge (ct : PyStr) (ne : SubtitleEntry) (cet : PyStr)
    (o : Options) : Option Bool :=
  match time_to_ms cet with
  | none => none
  | some cem =>
    match ne.start_time with
    | none => none
    | some nst =>
      match time_to_ms nst with
      | none => none
      | some nsm =>
        if (nsm : Int) - (cem : Int) > o.maxBasicGap then some false
        else if o.enableMinLengthMerge then
          match ne.text with
          | none => none
          | some nt =>
            let curLen := (ct.filter fun c => c ≠ ' ').length
            let nextLen := ((strip nt).filter fun c => c ≠ ' ').length
            if (curLen : Int) ≥ o.minTextLength ∨ (nextLen : Int) ≥ o.minTextLength then
              some false
            else some true
        else some true

/-- The clamped candidate window width: int(candidateChunkSize) with a
floor of one. -/
def chunkN (o : Options) : Nat := (max 1 o.candidateChunkSize).toNat

/-- A merge candidate of the candidate pipeline, as built in the inner
loop of merge_basic_entries. -/
structure Candidate where
  entry : SubtitleEntry
  merge_count : Nat
  analysis : Option Analysis
  score : ℚ
  is_complete : Bool
  start_idx : Nat
deriving DecidableEq

/-- The candidate record appended at the top of each iteration of the
inner while-True loop of merge_basic_entries. -/
def mkCand (st : PyStr) (sIdx m : Nat) (ct cet : PyStr) (an : Option Analysis) : Candidate :=
  { entry := { start_time := some st, end_time := some cet, text := some ct },
    merge_count := m, analysis := an, score := compute_candidate_score an,
    is_complete := match an with | some a => a.is_complete_sentence | none => false,
    start_idx := sIdx }

/-- The inner while-True loop of merge_basic_entries growing one
candidate chain from a fixed start index.  The structural argument n is
the loop variant windowEnd - (startIdx + mergeCount), maintained exactly
by every caller, so n = 0 coincides with the source break condition
startIdx + mergeCount >= windowEnd (which the successor equation also
keeps explicitly): that iteration appends its candidate and stops. -/
def growCands (es : List SubtitleEntry) (o : Options) (az : Analyzer) (st : PyStr)
    (sIdx wEnd : Nat) : Nat → Nat → PyStr → PyStr → Option Analysis → Option (List Candidate)
  | 0, m, ct, cet, an => some [mkCand st sIdx m ct cet an]
  | n + 1, m, ct, cet, an =>
    if (m : Int) ≥ o.maxMergeCount ∨ chunkN o ≤ m ∨ wEnd ≤ sIdx + m then
      some [mkCand st sIdx m ct cet an]
    else
      match es.get? (sIdx + m) with
      | none => none
      | some ne =>
        match can_extend_merge ct ne cet o with
        | none => none
        | some false => some [mkCand st sIdx m ct cet an]
        | some true =>
          match ne.text with
          | none => none
          | some nt =>
            let combined := join_segment_text ct nt o.enableSpaceMerge
            if (combined.length : Int) > o.maxTextLength then some [mkCand st sIdx m ct cet an]
            else
              match ne.end_time with
              | none => none
              | some net =>
                match growCands es o az st sIdx wEnd n (m + 1) combined net
                    (safe_analyze_segment az o.segmentAnalyzerLanguage
                      o.enableSegmentAnalyzer combined) with
                | none => none
                | some rest => some (mkCand st sIdx m ct cet an :: rest)

/-- The for-loop of merge_basic_entries over the start indices of one
window: the structural argument k is the number of remaining start
indices, wEnd - sIdx for every caller. -/
def windowCands (es : List SubtitleEntry) (o : Options) (az : Analyzer) (wEnd : Nat) :
    Nat → Nat → Option (List Candidate)
  | 0, _ => some []
  | k + 1, sIdx =>
    match es.get? sIdx with
    | none => none
    | some se =>
      match se.text with
      | none => none
      | some t =>
        match se.end_time with
        | none => none
        | some et =>
          match se.start_time with
          | none => none
          | some st =>
            let ct := strip t
            let an := safe_analyze_segment az o.segmentAnalyzerLanguage
              o.enableSegmentAnalyzer ct
            match growCands es o az st sIdx wEnd (wEnd - (sIdx + 1)) 1 ct et an with
            | none => none
            | some cs =>
              match windowCands es o az wEnd k (sIdx + 1) with
              | none => none
              | some rest => some (cs ++ rest)

/-- Strict comparison of Python key tuples (score, break naturalness,
merge count) under lexicographic tuple ordering. -/
def keyGtB (x y : ℚ × ℚ × Nat) : Bool :=
  decide (y.1 < x.1) ||
    (decide (x.1 = y.1) &&
      (decide (y.2.1 < x.2.1) || (decide (x.2.1 = y.2.1) && decide (y.2.2 < x.2.2))))

/-- The fold of the Python builtin max: a later element replaces the
current best only when its key is strictly greater, so the first maximal
element wins. -/
def pyMaxFold (key : Candidate → ℚ × ℚ × Nat) (best : Candidate) :
    List Candidate → Candidate
  | [] => best
  | c :: cs => pyMaxFold key (if keyGtB (key c) (key best) then c else best) cs

/-- The Python builtin max with a key function; none on the empty list
(where Python would raise, a case the source guards separately). -/
def pyMaxBy (key : Candidate → ℚ × ℚ × Nat) : List Candidate → Option Candidate
  | [] => none
  | c :: cs => some (pyMaxFold key c cs)

/-- The selection key of merge_basic_entries: score, then break
naturalness (zero without a verdict), then merge count. -/
def candKey (c : Candidate) : ℚ × ℚ × Nat :=
  (c.score, (match c.analysis with | some a => a.break_naturalness | none => 0), c.merge_count)

/-- One iteration of the outer while-loop of merge_basic_entries at
cursor idx: generate the window candidates, pick the best, emit the
entries before it unmerged and the winning candidate entry, and return
the new cursor.  Each emitted entry is paired with the number of input
entries it absorbed (one for pass-through entries). -/
def basicStep (es : List SubtitleEntry) (o : Options) (az : Analyzer) (idx : Nat) :
    Option (List (SubtitleEntry × Nat) × Nat) :=
  let wEnd := min es.length (idx + chunkN o)
  match windowCands es o az wEnd (wEnd - idx) idx with
  | none => none
  | some wc =>
    match pyMaxBy candKey wc with
    | none =>
      match es.get? idx with
      | none => none
      | some e => some ([(e, 1)], idx + 1)
    | some best =>
      some ((((es.drop idx).take (best.start_idx - idx)).map fun e => (e, 1)) ++
        [(best.entry, best.merge_count)], best.start_idx + best.merge_count)

/-- Invariant of the candidate growth loop: every produced candidate
starts at the loop's start index, has a merge count between the entry
count m and max(m, maxMergeCount), carries the current text at count m,
and at any higher count carries a text that passed the length check. -/
theorem growCands_inv (es : List SubtitleEntry) (o : Options) (az : Analyzer)
    (st : PyStr) (sIdx wEnd : Nat) :
    ∀ (n m : Nat) (ct cet : PyStr) (an : Option Analysis) (res : List Candidate),
      growCands es o az st sIdx wEnd n m ct cet an = some res →
      ∀ c ∈ res, c.start_idx = sIdx ∧ m ≤ c.merge_count ∧
        (c.merge_count : Int) ≤ max (m : Int) o.maxMergeCount ∧
        ∃ t, c.entry.text = some t ∧ (c.merge_count = m → t = ct) ∧
          (m < c.merge_count → (t.length : Int) ≤ o.maxTextLength) := by
  intro n
  induction n with
  | zero =>
    intro m ct cet an res h c hc
    rw [growCands] at h
    cases h
    simp only [List.mem_singleton] at hc
    subst hc
    exact ⟨rfl, le_refl _, le_max_left _ _, ct, rfl, fun _ => rfl,
      fun hlt => absurd hlt (by simp [mkCand])⟩
  | succ n ih =>
    intro m ct cet an res h c hc
    rw [growCands] at h
    split at h
    · cases h
      simp only [List.mem_singleton] at hc
      subst hc
      exact ⟨rfl, le_refl _, le_max_left _ _, ct, rfl, fun _ => rfl,
        fun hlt => absurd hlt (by simp [mkCand])⟩
    · rename_i hcond
      split at h
      · exact absurd h (by simp)
      · rename_i ne hne
        split at h
        · exact absurd h (by simp)
        · cases h
          simp only [List.mem_singleton] at hc
          subst hc
          exact ⟨rfl, le_refl _, le_max_left _ _, ct, rfl, fun _ => rfl,
            fun hlt => absurd hlt (by simp [mkCand])⟩
        · split at h
          · exact absurd h (by simp)
          · rename_i nt hnt
            simp only [] at h
            split at h
            · cases h
              simp only [List.mem_singleton] at hc
              subst hc
              exact ⟨rfl, le_refl _, le_max_left _ _, ct, rfl, fun _ => rfl,
                fun hlt => absurd hlt (by simp [mkCand])⟩
            · rename_i hlen
              split at h
              · exact absurd h (by simp)
              · rename_i net hnet
                split at h
                · exact absurd h (by simp)
                · rename_i rest hrest
                  cases h
                  have hmlt : (m : Int) < o.maxMergeCount := by
                    push_neg at hcond
                    exact_mod_cast hcond.1
                  simp only [List.mem_cons] at hc
                  rcases hc with hc | hc
                  · subst hc
                    exact ⟨rfl, le_refl _, le_max_left _ _, ct, rfl, fun _ => rfl,
                      fun hlt => absurd hlt (by simp [mkCand])⟩
                  · obtain ⟨h1, h2, h3, t, ht, htm, htlen⟩ := ih _ _ _ _ _ hrest c hc
                    refine ⟨h1, by omega, ?_, t, ht, ?_, ?_⟩
                    · have hmax2 : max (m : Int) o.maxMergeCount = o.maxMergeCount :=
                        max_eq_right (by omega)
                      rw [hmax2]
                      calc (c.merge_count : Int) ≤ max ((m + 1 : Nat) : Int) o.maxMergeCount := h3
                        _ = max ((m : Int) + 1) o.maxMergeCount := by push_cast; rfl
                        _ = o.maxMergeCount := max_eq_right (by omega)
                    · intro hcm
                      omega
                    · intro hlt
                      rcases Nat.lt_or_ge (m + 1) c.merge_count with hgt | hge
                      · exact htlen hgt
                      · have hcm : c.merge_count = m + 1 := by omega
                        rw [htm hcm]
                        have hnl := not_lt.mp hlen
                        simpa using hnl

/-- Invariant of the window candidate generation: every candidate starts
at or after the first start index of the window, absorbed at least one
entry, at most max(1, maxMergeCount) entries, and its text passed the
length check whenever it absorbed more than one entry. -/
theorem windowCands_inv (es : List SubtitleEntry) (o : Options) (az : Analyzer) (wEnd : Nat) :
    ∀ (k sIdx : Nat) (res : List Candidate),
      windowCands es o az wEnd k sIdx = some res →
      ∀ c ∈ res, sIdx ≤ c.start_idx ∧ 1 ≤ c.merge_count ∧
        (c.merge_count : Int) ≤ max 1 o.maxMergeCount ∧
        ∃ t, c.entry.text = some t ∧
          (1 < c.merge_count → (t.length : Int) ≤ o.maxTextLength) := by
  intro k
  induction k with
  | zero =>
    intro sIdx res h c hc
    rw [windowCands] at h
    cases h
    simp at hc
  | succ k ih =>
    intro sIdx res h c hc
    rw [windowCands] at h
    split at h
    · exact absurd h (by simp)
    · rename_i se hse
      split at h
      · exact absurd h (by simp)
      · rename_i t ht
        split at h
        · exact absurd h (by simp)
        · rename_i et het
          split at h
          · exact absurd h (by simp)
          · rename_i st2 hst
            simp only [] at h
            split at h
            · exact absurd h (by simp)
            · rename_i cs hcs
              split at h
              · exact absurd h (by simp)
              · rename_i rest hrest
                cases h
                simp only [List.mem_append] at hc
                rcases hc with hc | hc
                · obtain ⟨h1, h2, h3, tt, htt, htm, htlen⟩ :=
                    growCands_inv es o az st2 sIdx wEnd _ _ _ _ _ _ hcs c hc
                  refine ⟨le_of_eq h1.symm, h2, ?_, tt, htt, fun hlt => htlen hlt⟩
                  simpa using h3
                · obtain ⟨h1, h2, h3, h4⟩ := ih _ _ hrest c hc
                  exact ⟨by omega, h2, h3, h4⟩

/-- The fold of the Python max either keeps the initial best or returns a
list element. -/
theorem pyMaxFold_mem (key : Candidate → ℚ × ℚ × Nat) :
    ∀ (l : List Candidate) (best : Candidate),
      pyMaxFold key best l = best ∨ pyMaxFold key best l ∈ l := by
  intro l
  induction l with
  | nil =>
    intro best
    left
    rw [pyMaxFold]
  | cons c cs ih =>
    intro best
    rw [pyMaxFold]
    rcases ih (if keyGtB (key c) (key best) then c else best) with h | h
    · rw [h]
      by_cases hk : keyGtB (key c) (key best) = true
      · rw [if_pos hk]
        right
        exact List.mem_cons_self _ _
      · rw [if_neg hk]
        left
        rfl
    · right
      exact List.mem_cons_of_mem _ h

/-- The Python max returns an element of its argument list. -/
theorem pyMaxBy_mem (key : Candidate → ℚ × ℚ × Nat) (l : List Candidate) (b : Candidate)
    (h : pyMaxBy key l = some b) : b ∈ l := by
  cases l with
  | nil => simp [pyMaxBy] at h
  | cons c cs =>
    rw [pyMaxBy] at h
    cases h
    rcases pyMaxFold_mem key cs c with h | h
    · rw [h]
      exact List.mem_cons_self _ _
    · exact List.mem_cons_of_mem _ h

/-- The cursor returned by one iteration of the outer loop of
merge_basic_entries is strictly beyond the entering cursor. -/
theorem basicStep_next_lt (es : List SubtitleEntry) (o : Options) (az : Analyzer)
    (idx : Nat) (out : List (SubtitleEntry × Nat)) (idx2 : Nat)
    (h : basicStep es o az idx = some (out, idx2)) : idx < idx2 := by
  unfold basicStep at h
  simp only [] at h
  split at h
  · exact absurd h (by simp)
  · rename_i wc hwc
    split at h
    · split at h
      · exact absurd h (by simp)
      · cases h
        omega
    · rename_i best hbest
      cases h
      have hmem := pyMaxBy_mem _ _ _ hbest
      obtain ⟨h1, h2, _, _⟩ := windowCands_inv es o az _ _ _ _ hwc best hmem
      omega

/-- The outer while-loop of merge_basic_entries: one basicStep per
iteration; the strict cursor advance proved in basicStep_next_lt is the
termination measure. -/
def basicLoop (es : List SubtitleEntry) (o : Options) (az : Analyzer) (idx : Nat) :
    Option (List (SubtitleEntry × Nat)) :=
  if h : idx < es.length then
    match hs : basicStep es o az idx with
    | none => none
    | some (out, idx2) =>
      match basicLoop es o az idx2 with
      | none => none
      | some tl => some (out ++ tl)
  else some []
termination_by es.length - idx
decreasing_by
  have := basicStep_next_lt es o az idx out idx2 hs
  omega

/-- Model of merge_basic_entries from src/app.py, instrumented: each
output entry is paired with the number of input entries it absorbed (one
for entries emitted singly). -/
def merge_basic_entries_counted (es : List SubtitleEntry) (o : Options) (az : Analyzer) :
    Option (List (SubtitleEntry × Nat)) :=
  basicLoop es o az 0

/-- Model of merge_basic_entries from src/app.py (the absorbed-entry
instrumentation projected away). -/
def merge_basic_entries (es : List SubtitleEntry) (o : Options) (az : Analyzer) :
    Option (List SubtitleEntry) :=
  (merge_basic_entries_counted es o az).map (List.map Prod.fst)

/-- Model of apply_merge_pipeline from src/app.py: the three merge stages
in fixed order, each behind its flag. -/
def apply_merge_pipeline (az : Analyzer) (es : List SubtitleEntry) (o : Options) :
    Option (List SubtitleEntry) :=
  match (if o.enableDuplicateMerge then merge_duplicate_entries es o.maxDuplicateGap
      else some es) with
  | none => none
  | some es1 =>
    match (if o.enableEndStartMerge then
        merge_end_start_entries es1 o.maxEndStartGap o.enableSpaceMerge o.maxTextLength
          o.enableJapaneseEndingDetection
      else some es1) with
    | none => none
    | some es2 =>
      if o.enableBasicMerge then merge_basic_entries es2 o az else some es2

/-- Model of process_srt from src/app.py, returning the generated output
text (the before/after counts of the returned dict are reporting only);
none models the ValueError that process_srt re-raises after any stage
fails. -/
def process_srt (az : Analyzer) (txt : PyStr) (o : Options) (st et : Option PyStr) :
    Option PyStr :=
  match parse_srt txt with
  | none => none
  | some es0 =>
    match filter_by_time_range es0 st et with
    | none => none
    | some es1 =>
      match filter_bracket_entries es1 with
      | none => none
      | some es2 =>
        match remove_short_entries es2 o with
        | none => none
        | some es3 =>
          match apply_merge_pipeline az es3 o with
          | none => none
          | some es4 => generate_srt (reindex_entries es4)

/-- Unfolding equation for boundaryLoop on a cons cell with a known
boundaryExtend result. -/
theorem boundaryLoop_cons_eq (g : Int) (sm : Bool) (e : SubtitleEntry)
    (rest : List SubtitleEntry) (m : SubtitleEntry) (rem : List SubtitleEntry)
    (h : boundaryExtend g sm e rest = some (m, rem)) :
    boundaryLoop g sm (e :: rest) =
      match boundaryLoop g sm rem with
      | none => none
      | some tl => some (m :: tl) := by
  rw [boundaryLoop]
  split
  · rename_i heq
    rw [h] at heq
    cases heq
  · rename_i m2 rem2 heq
    rw [h] at heq
    cases heq
    rfl

/-- Unfolding equation for boundaryLoop on the empty list. -/
theorem boundaryLoop_nil (g : Int) (sm : Bool) : boundaryLoop g sm [] = some [] := by
  rw [boundaryLoop]

/-- Unfolding equation for basicLoop at an in-range cursor with a known
basicStep result. -/
theorem basicLoop_step_eq (es : List SubtitleEntry) (o : Options) (az : Analyzer)
    (idx : Nat) (out : List (SubtitleEntry × Nat)) (idx2 : Nat)
    (hidx : idx < es.length) (h : basicStep es o az idx = some (out, idx2)) :
    basicLoop es o az idx =
      match basicLoop es o az idx2 with
      | none => none
      | some tl => some (out ++ tl) := by
  rw [basicLoop, dif_pos hidx]
  split
  · rename_i heq
    rw [h] at heq
    cases heq
  · rename_i out2 idx3 heq
    rw [h] at heq
    cases heq
    rfl

/-- Unfolding equation for basicLoop at an out-of-range cursor. -/
theorem basicLoop_stop (es : List SubtitleEntry) (o : Options) (az : Analyzer)
    (idx : Nat) (hidx : ¬ idx < es.length) : basicLoop es o az idx = some [] := by
  rw [basicLoop, dif_neg hidx]

/-- The analyzer used in concrete witnesses: always failing, equivalent to
an absent verdict on every call. -/
def noAnalyzer : Analyzer := fun _ _ => none

/-- Concrete entries used by several witnesses. -/
def exEntry1 : SubtitleEntry :=
  { start_time := some ("00:00:00,000".data), end_time := some ("00:00:01,000".data),
    text := some ("ab".data) }

/-- Second concrete witness entry, 100ms after the first. -/
def exEntry2 : SubtitleEntry :=
  { start_time := some ("00:00:01,100".data), end_time := some ("00:00:02,000".data),
    text := some ("cd".data) }

/-- The entry the candidate pipeline produces from the two witness
entries with basic merging enabled and default options. -/
def exMergedEntry : SubtitleEntry :=
  { start_time := some ("00:00:00,000".data), end_time := some ("00:00:02,000".data),
    text := some ("abcd".data) }

/-- The single candidate of a one-entry window over exEntry1. -/
def exCand : Candidate :=
  { entry := exEntry1, merge_count := 1, analysis := none, score := 0,
    is_complete := false, start_idx := 0 }

/-!
Claim theorems.
-/

/-- Claim C1 as stated is false on the code: with the minimum-length-merge
rule enabled and minTextLength 3, the current text "ab" has fewer than 3
non-space characters (so the claim predicts the extension is permitted),
the gap 100ms is within maxBasicGap 500ms, yet can_extend_merge refuses
because the other text "hello" reaches the minimum length. -/
theorem C1_counterexample :
    (("ab".data.filter fun c => c ≠ ' ').length : Int) < (3 : Int) ∧
    can_extend_merge ("ab".data)
      { start_time := some ("00:00:00,100".data), text := some ("hello".data) }
      ("00:00:00,000".data)
      { enableMinLengthMerge := true, minTextLength := 3 } = some false := by
  decide

/-- C1 amended: when the minimum-length-merge rule is enabled, the next
entry has a start time and a text, the timestamps parse and the gap is
within maxBasicGap, the extension is permitted precisely when BOTH texts
have fewer than minTextLength non-space characters; it is refused as soon
as either text reaches the minimum length. -/
theorem C1_amended (ct : PyStr) (ne : SubtitleEntry) (cet : PyStr) (o : Options)
    (cem nsm : Nat) (nst nt : PyStr)
    (hml : o.enableMinLengthMerge = true)
    (hcem : time_to_ms cet = some cem)
    (hnst : ne.start_time = some nst)
    (hnsm : time_to_ms nst = some nsm)
    (hnt : ne.text = some nt)
    (hgap : ¬ ((nsm : Int) - (cem : Int) > o.maxBasicGap)) :
    can_extend_merge ct ne cet o =
      some (decide ((((ct.filter fun c => c ≠ ' ').length : Int) < o.minTextLength ∧
        ((((strip nt).filter fun c => c ≠ ' ').length : Int) < o.minTextLength)))) := by
  unfold can_extend_merge
  simp only [hcem, hnst, hnsm, hnt, hml]
  rw [if_neg hgap, if_pos trivial]
  by_cases hlong : (((ct.filter fun c => c ≠ ' ').length : Int) ≥ o.minTextLength ∨
      ((((strip nt).filter fun c => c ≠ ' ').length : Int) ≥ o.minTextLength))
  · rw [if_pos hlong]
    have hnot : ¬ ((((ct.filter fun c => c ≠ ' ').length : Int) < o.minTextLength) ∧
        ((((strip nt).filter fun c => c ≠ ' ').length : Int) < o.minTextLength)) := by
      rcases hlong with hl | hl
      · intro hx
        omega
      · intro hx
        omega
    exact congrArg some (decide_eq_false hnot).symm
  · rw [if_neg hlong]
    push_neg at hlong
    have hyes : ((((ct.filter fun c => c ≠ ' ').length : Int) < o.minTextLength) ∧
        ((((strip nt).filter fun c => c ≠ ' ').length : Int) < o.minTextLength)) :=
      ⟨hlong.1, hlong.2⟩
    exact congrArg some (decide_eq_true hyes).symm

/-- Witness for C1_amended at a concrete input: both texts are shorter
than the minimum length, and the extension is permitted. -/
theorem C1_witness :
    can_extend_merge ("a".data)
      { start_time := some ("00:00:00,100".data), text := some ("b".data) }
      ("00:00:00,000".data)
      { enableMinLengthMerge := true, minTextLength := 3 } = some true := by
  have h := C1_amended ("a".data)
    { start_time := some ("00:00:00,100".data), text := some ("b".data) }
    ("00:00:00,000".data)
    { enableMinLengthMerge := true, minTextLength := 3 }
    0 100 ("00:00:00,100".data) ("b".data)
    rfl (by decide) rfl (by decide) rfl (by decide)
  rw [h]
  decide

/-- Claim C2 as stated is false on the code: with the minimum-duration
filter enabled, an entry whose start timestamp "bad" is malformed does not
fail the run; is_short_subtitle catches the conversion error and answers
false, so the filter returns normally and keeps the entry. -/
theorem C2_counterexample :
    time_to_ms ("bad".data) = none ∧
    remove_short_entries
      [{ start_time := some ("bad".data), end_time := some ("00:00:01,000".data),
         text := some ("x".data) }]
      { enableMinDurationRemove := true } =
      some [{ start_time := some ("bad".data), end_time := some ("00:00:01,000".data),
              text := some ("x".data) }] := by
  decide

/-- A malformed start or end timestamp makes is_short_subtitle answer
false (the ValueError is caught inside the helper), never raise. -/
theorem is_short_subtitle_malformed (st et : PyStr) (thr : Int)
    (h : time_to_ms st = none ∨ time_to_ms et = none) :
    is_short_subtitle st et thr = false := by
  unfold is_short_subtitle
  rcases h with h | h
  · rw [h]
  · rcases hst : time_to_ms st with _ | sm
    · rfl
    · rw [h]

/-- C2 amended: the minimum-duration filter never fails on a malformed
timestamp value; whenever every entry carries both timestamp fields the
filter returns normally, and every entry whose start or end timestamp
fails to parse is kept in the output (other stages do propagate the
error, but this one downgrades it). -/
theorem C2_amended (o : Options) :
    ∀ (es : List SubtitleEntry),
      (∀ e ∈ es, e.start_time ≠ none ∧ e.end_time ≠ none) →
      ∃ out, remove_short_entries es o = some out ∧
        ∀ e ∈ es, ∀ st et, e.start_time = some st → e.end_time = some et →
          (time_to_ms st = none ∨ time_to_ms et = none) → e ∈ out := by
  intro es
  unfold remove_short_entries
  by_cases hen : o.enableMinDurationRemove
  · rw [if_pos hen]
    clear hen
    induction es with
    | nil => exact fun _ => ⟨[], rfl, by simp⟩
    | cons e es ih =>
      intro hf
      obtain ⟨out, hout, hkeep⟩ := ih (fun x hx => hf x (List.mem_cons_of_mem _ hx))
      obtain ⟨h1, h2⟩ := hf e (List.mem_cons_self _ _)
      rcases hst : e.start_time with _ | st
      · exact absurd hst h1
      · rcases het : e.end_time with _ | et
        · exact absurd het h2
        · rw [removeShortGo]
          simp only [hst, het, hout]
          by_cases hshort : is_short_subtitle st et o.minDurationMs = true
          · rw [if_pos hshort]
            refine ⟨out, rfl, ?_⟩
            intro x hx st2 et2 hst2 het2 hbad
            rcases List.mem_cons.mp hx with hx | hx
            · subst hx
              rw [hst2] at hst
              rw [het2] at het
              cases hst
              cases het
              rw [is_short_subtitle_malformed _ _ _ hbad] at hshort
              cases hshort
            · exact hkeep x hx st2 et2 hst2 het2 hbad
          · rw [if_neg hshort]
            refine ⟨e :: out, rfl, ?_⟩
            intro x hx st2 et2 hst2 het2 hbad
            rcases List.mem_cons.mp hx with hx | hx
            · subst hx
              exact List.mem_cons_self _ _
            · exact List.mem_cons_of_mem _ (hkeep x hx st2 et2 hst2 het2 hbad)
  · rw [if_neg hen]
    intro hf
    exact ⟨es, rfl, fun e he _ _ _ _ _ => he⟩

/-- Witness for C2_amended at a concrete input: the filter is enabled, the
single entry has a malformed start timestamp, the filter returns and the
entry is kept. -/
theorem C2_witness :
    ∃ out, remove_short_entries
        [{ start_time := some ("bad".data), end_time := some ("00:00:01,000".data),
           text := some ("x".data) }]
        { enableMinDurationRemove := true } = some out ∧
      ({ start_time := some ("bad".data), end_time := some ("00:00:01,000".data),
         text := some ("x".data) } : SubtitleEntry) ∈ out := by
  obtain ⟨out, hout, hkeep⟩ := C2_amended { enableMinDurationRemove := true }
    [{ start_time := some ("bad".data), end_time := some ("00:00:01,000".data),
       text := some ("x".data) }] (by decide)
  exact ⟨out, hout, hkeep _ (List.mem_cons_self _ _) _ _ rfl rfl (Or.inl (by decide))⟩

/-- Claim C5 as stated is false on the code: ms_to_time on the negative
input -1 does not raise; Python divmod is floor division and the
formatting succeeds, returning the (invalid) timestamp text
"-1:59:59,999". -/
theorem C5_counterexample : ms_to_time (-1) = "-1:59:59,999".data := by
  decide

/-- C5 amended: ms_to_time never raises on integer input; a negative
input silently produces a string that begins with a minus sign (hence is
not a well-formed timestamp). -/
theorem C5_amended (n : Int) (h : n < 0) : (ms_to_time n).head? = some '-' := by
  have hneg : n.fdiv 3600000 < 0 := by
    rcases n with m | m
    · exact absurd h (not_lt.mpr (Int.ofNat_nonneg m))
    · have heq : Int.fdiv (Int.negSucc m) 3600000 = Int.negSucc (m / 3600000) := rfl
      rw [heq]
      exact Int.negSucc_lt_zero _
  have hfmt : pyFmt 2 (n.fdiv 3600000) =
      '-' :: leftPad '0' 1 (natRepr (-(n.fdiv 3600000)).toNat) := if_pos hneg
  show (pyFmt 2 (n.fdiv 3600000) ++ ':' :: pyFmt 2 ((n.fmod 3600000).fdiv 60000) ++
      ':' :: pyFmt 2 (((n.fmod 3600000).fmod 60000).fdiv 1000) ++
      ',' :: pyFmt 3 (((n.fmod 3600000).fmod 60000).fmod 1000)).head? = some '-'
  rw [hfmt]
  rfl

/-- Witness for C5_amended at the concrete input -1. -/
theorem C5_witness : (ms_to_time (-1)).head? = some '-' :=
  C5_amended (-1) (by decide)


/-- Claim C10: the parser accepts a block with text lines but no
timestamp line, producing an entry that has a text field and neither
timestamp field; serializing it fails, so the whole process_srt run
fails on that input even though parsing succeeded. -/
theorem C10_parse_lenient_serialize_fails :
    parse_srt ("hello".data) = some [{ text := some ("hello".data) }] ∧
    ({ text := some ("hello".data) } : SubtitleEntry).start_time = none ∧
    ({ text := some ("hello".data) } : SubtitleEntry).end_time = none ∧
    generate_srt (reindex_entries [{ text := some ("hello".data) }]) = none ∧
    process_srt noAnalyzer ("hello".data) {} none none = none := by
  decide

/-- Claim C7: the cursor returned by every iteration of the outer loop of
merge_basic_entries is strictly larger than the entering cursor, for every
entry list and every options value (the window width and merge cap
included), which is exactly the measure that makes the loop terminate. -/
theorem C7_cursor_strictly_increases (es : List SubtitleEntry) (o : Options) (az : Analyzer)
    (idx : Nat) (out : List (SubtitleEntry × Nat)) (idx2 : Nat)
    (hidx : idx < es.length)
    (h : basicStep es o az idx = some (out, idx2)) : idx < idx2 :=
  basicStep_next_lt es o az idx out idx2 h

/-- Witness for C7 at a concrete two-entry input with default options:
the first iteration advances the cursor from 0 to 2. -/
theorem C7_witness : (0 : Nat) < 2 :=
  C7_cursor_strictly_increases [exEntry1, exEntry2] { enableBasicMerge := true } noAnalyzer
    0 [(exMergedEntry, 2)] 2 (by decide) (by decide)

/-- Unfolding equation for basicLoop at an in-range cursor with a failing
basicStep. -/
theorem basicLoop_step_none (es : List SubtitleEntry) (o : Options) (az : Analyzer)
    (idx : Nat) (hidx : idx < es.length) (h : basicStep es o az idx = none) :
    basicLoop es o az idx = none := by
  rw [basicLoop, dif_pos hidx]
  split
  · rfl
  · rename_i out2 idx3 heq
    rw [h] at heq
    cases heq

/-- Each iteration of the outer loop of merge_basic_entries emits only
pairs within the constraints: absorbed count at most maxMergeCount, and a
length-checked text whenever at least two entries were absorbed. -/
theorem basicStep_out_inv (es : List SubtitleEntry) (o : Options) (az : Analyzer)
    (idx : Nat) (out : List (SubtitleEntry × Nat)) (idx2 : Nat)
    (hmc : 1 ≤ o.maxMergeCount)
    (h : basicStep es o az idx = some (out, idx2)) :
    ∀ p ∈ out, (p.2 : Int) ≤ o.maxMergeCount ∧
      (2 ≤ p.2 → ∀ t, p.1.text = some t → (t.length : Int) ≤ o.maxTextLength) := by
  unfold basicStep at h
  simp only [] at h
  split at h
  · exact absurd h (by simp)
  · rename_i wc hwc
    split at h
    · split at h
      · exact absurd h (by simp)
      · cases h
        intro p hp
        simp only [List.mem_singleton] at hp
        subst hp
        exact ⟨by simpa using hmc, fun h2 => absurd h2 (by omega)⟩
    · rename_i best hbest
      cases h
      intro p hp
      rcases List.mem_append.mp hp with hp | hp
      · obtain ⟨e, -, rfl⟩ := List.mem_map.mp hp
        exact ⟨by simpa using hmc, fun h2 => absurd h2 (by omega)⟩
      · simp only [List.mem_singleton] at hp
        subst hp
        obtain ⟨-, -, h3, tt, htt, htlen⟩ :=
          windowCands_inv es o az _ _ _ _ hwc best (pyMaxBy_mem _ _ _ hbest)
        constructor
        · rw [max_eq_right hmc] at h3
          exact h3
        · intro h2 t ht
          rw [htt] at ht
          cases ht
          exact htlen (by omega)

/-- Fuel-indexed version of the C6 constraint invariant over the whole
outer loop. -/
theorem basicLoop_out_inv (es : List SubtitleEntry) (o : Options) (az : Analyzer)
    (hmc : 1 ≤ o.maxMergeCount) :
    ∀ (fuel idx : Nat), es.length - idx ≤ fuel →
      ∀ out, basicLoop es o az idx = some out →
      ∀ p ∈ out, (p.2 : Int) ≤ o.maxMergeCount ∧
        (2 ≤ p.2 → ∀ t, p.1.text = some t → (t.length : Int) ≤ o.maxTextLength) := by
  intro fuel
  induction fuel with
  | zero =>
    intro idx hle out hout p hp
    have hidx : ¬ idx < es.length := by omega
    rw [basicLoop_stop es o az idx hidx] at hout
    cases hout
    cases hp
  | succ fuel ih =>
    intro idx hle out hout p hp
    by_cases hidx : idx < es.length
    · rcases hbs : basicStep es o az idx with _ | ⟨out1, idx2⟩
      · rw [basicLoop_step_none es o az idx hidx hbs] at hout
        cases hout
      · rw [basicLoop_step_eq es o az idx out1 idx2 hidx hbs] at hout
        rcases hbl : basicLoop es o az idx2 with _ | tl
        · rw [hbl] at hout
          cases hout
        · rw [hbl] at hout
          cases hout
          rcases List.mem_append.mp hp with hp | hp
          · exact basicStep_out_inv es o az idx out1 idx2 hmc hbs p hp
          · have hlt := basicStep_next_lt es o az idx out1 idx2 hbs
            exact ih idx2 (by omega) tl hbl p hp
    · rw [basicLoop_stop es o az idx hidx] at hout
      cases hout
      cases hp

/-- Claim C6: for every input list, every analyzer, and options with
maxMergeCount at least one, every entry produced by merge_basic_entries
absorbed at most maxMergeCount input entries, and whenever it is a real
merge (at least two entries absorbed) its text length is at most
maxTextLength.  Pass-through entries keep their input text unchecked,
which is why the length bound is stated for merged entries. -/
theorem C6_candidate_pipeline_constraints (es : List SubtitleEntry) (o : Options)
    (az : Analyzer) (out : List (SubtitleEntry × Nat))
    (hmc : 1 ≤ o.maxMergeCount)
    (h : merge_basic_entries_counted es o az = some out) :
    ∀ p ∈ out, (p.2 : Int) ≤ o.maxMergeCount ∧
      (2 ≤ p.2 → ∀ t, p.1.text = some t → (t.length : Int) ≤ o.maxTextLength) :=
  basicLoop_out_inv es o az hmc es.length 0 (by omega) out h

/-- Witness for C6 at a concrete input: two short entries merge into one
entry that absorbed 2 entries (the cap) with text of length 4 (under the
50-character cap). -/
theorem C6_witness :
    ((2 : Nat) : Int) ≤ (2 : Int) ∧ ((("abcd".data : PyStr).length : Int) ≤ (50 : Int)) := by
  have hm : merge_basic_entries_counted [exEntry1, exEntry2] { enableBasicMerge := true }
      noAnalyzer = some [(exMergedEntry, 2)] := by
    unfold merge_basic_entries_counted
    rw [basicLoop_step_eq [exEntry1, exEntry2] { enableBasicMerge := true } noAnalyzer 0
      [(exMergedEntry, 2)] 2 (by decide) (by decide), basicLoop_stop _ _ _ _ (by decide)]
    rfl
  have hc := C6_candidate_pipeline_constraints [exEntry1, exEntry2]
    { enableBasicMerge := true } noAnalyzer [(exMergedEntry, 2)] (by decide) hm
  obtain ⟨h1, h2⟩ := hc (exMergedEntry, 2) (List.mem_cons_self _ _)
  exact ⟨by simpa using h1, by simpa using h2 (by omega) ("abcd".data) rfl⟩

/-- The safe analyzer wrapper returns no verdict when the analyzer flag is
off. -/
theorem safe_analyze_disabled (az : Analyzer) (lang t : PyStr) :
    safe_analyze_segment az lang false t = none := rfl

/-- With the analyzer disabled, every candidate grown from a no-verdict
state carries no verdict and score zero. -/
theorem growCands_disabled (es : List SubtitleEntry) (o : Options) (az : Analyzer)
    (st : PyStr) (sIdx wEnd : Nat) (hdis : o.enableSegmentAnalyzer = false) :
    ∀ (n m : Nat) (ct cet : PyStr) (res : List Candidate),
      growCands es o az st sIdx wEnd n m ct cet none = some res →
      ∀ c ∈ res, c.analysis = none ∧ c.score = 0 := by
  intro n
  induction n with
  | zero =>
    intro m ct cet res h c hc
    rw [growCands] at h
    cases h
    simp only [List.mem_singleton] at hc
    subst hc
    exact ⟨rfl, rfl⟩
  | succ n ih =>
    intro m ct cet res h c hc
    rw [growCands] at h
    split at h
    · cases h
      simp only [List.mem_singleton] at hc
      subst hc
      exact ⟨rfl, rfl⟩
    · split at h
      · exact absurd h (by simp)
      · split at h
        · exact absurd h (by simp)
        · cases h
          simp only [List.mem_singleton] at hc
          subst hc
          exact ⟨rfl, rfl⟩
        · split at h
          · exact absurd h (by simp)
          · simp only [] at h
            split at h
            · cases h
              simp only [List.mem_singleton] at hc
              subst hc
              exact ⟨rfl, rfl⟩
            · split at h
              · exact absurd h (by simp)
              · split at h
                · exact absurd h (by simp)
                · rename_i rest hrest
                  cases h
                  simp only [List.mem_cons] at hc
                  rcases hc with hc | hc
                  · subst hc
                    exact ⟨rfl, rfl⟩
                  · rw [hdis, safe_analyze_disabled] at hrest
                    exact ih _ _ _ _ hrest c hc

/-- With the analyzer disabled, every candidate of every window carries
no verdict and score zero. -/
theorem windowCands_disabled (es : List SubtitleEntry) (o : Options) (az : Analyzer)
    (wEnd : Nat) (hdis : o.enableSegmentAnalyzer = false) :
    ∀ (k sIdx : Nat) (res : List Candidate),
      windowCands es o az wEnd k sIdx = some res →
      ∀ c ∈ res, c.analysis = none ∧ c.score = 0 := by
  intro k
  induction k with
  | zero =>
    intro sIdx res h c hc
    rw [windowCands] at h
    cases h
    cases hc
  | succ k ih =>
    intro sIdx res h c hc
    rw [windowCands] at h
    split at h
    · exact absurd h (by simp)
    · split at h
      · exact absurd h (by simp)
      · split at h
        · exact absurd h (by simp)
        · split at h
          · exact absurd h (by simp)
          · simp only [] at h
            split at h
            · exact absurd h (by simp)
            · rename_i cs hcs
              split at h
              · exact absurd h (by simp)
              · rename_i rest hrest
                cases h
                rcases List.mem_append.mp hc with hc | hc
                · rw [hdis, safe_analyze_disabled] at hcs
                  exact growCands_disabled es o az _ _ wEnd hdis _ _ _ _ _ hcs c hc
                · exact ih _ _ hrest c hc

/-- The Python max over candidates that all carry score zero and no
verdict selects a candidate of maximal merge count. -/
theorem pyMaxFold_count_max :
    ∀ (l : List Candidate) (b : Candidate),
      (∀ c ∈ l, c.analysis = none ∧ c.score = 0) → b.analysis = none → b.score = 0 →
      b.merge_count ≤ (pyMaxFold candKey b l).merge_count ∧
        ∀ c ∈ l, c.merge_count ≤ (pyMaxFold candKey b l).merge_count := by
  intro l
  induction l with
  | nil =>
    intro b _ _ _
    rw [pyMaxFold]
    exact ⟨le_refl _, by simp⟩
  | cons c cs ih =>
    intro b hl hba hbs
    obtain ⟨hca, hcs0⟩ := hl c (List.mem_cons_self _ _)
    have hkey : keyGtB (candKey c) (candKey b) = decide (b.merge_count < c.merge_count) := by
      unfold candKey keyGtB
      rw [hca, hba, hcs0, hbs]
      simp
    rw [pyMaxFold, hkey]
    by_cases hlt : b.merge_count < c.merge_count
    · rw [if_pos (by simpa using hlt)]
      obtain ⟨h1, h2⟩ := ih c (fun x hx => hl x (List.mem_cons_of_mem _ hx)) hca hcs0
      refine ⟨le_trans (le_of_lt hlt) h1, ?_⟩
      intro x hx
      rcases List.mem_cons.mp hx with rfl | hx
      · exact h1
      · exact h2 x hx
    · rw [if_neg (by simpa using hlt)]
      obtain ⟨h1, h2⟩ := ih b (fun x hx => hl x (List.mem_cons_of_mem _ hx)) hba hbs
      refine ⟨h1, ?_⟩
      intro x hx
      rcases List.mem_cons.mp hx with rfl | hx
      · exact le_trans (not_lt.mp hlt) h1
      · exact h2 x hx

/-- Claim C8: with the analyzer disabled, every candidate generated for a
window has score 0, and the window winner selected by the Python max over
(score, break naturalness, merge count) is a candidate of maximal merge
count among the window candidates. -/
theorem C8_analyzer_disabled_longest_merge_wins (es : List SubtitleEntry) (o : Options)
    (az : Analyzer) (wEnd k sIdx : Nat) (wc : List Candidate) (best : Candidate)
    (hdis : o.enableSegmentAnalyzer = false)
    (hw : windowCands es o az wEnd k sIdx = some wc)
    (hb : pyMaxBy candKey wc = some best) :
    (∀ c ∈ wc, c.score = 0) ∧ (∀ c ∈ wc, c.merge_count ≤ best.merge_count) := by
  have hall := windowCands_disabled es o az wEnd hdis k sIdx wc hw
  refine ⟨fun c hc => (hall c hc).2, ?_⟩
  cases wc with
  | nil => simp [pyMaxBy] at hb
  | cons c0 cs =>
    rw [pyMaxBy] at hb
    cases hb
    obtain ⟨h0a, h0s⟩ := hall c0 (List.mem_cons_self _ _)
    obtain ⟨h1, h2⟩ := pyMaxFold_count_max cs c0
      (fun x hx => hall x (List.mem_cons_of_mem _ hx)) h0a h0s
    intro c hc
    rcases List.mem_cons.mp hc with rfl | hc
    · exact h1
    · exact h2 c hc

/-- Witness for C8 at a concrete one-entry window with the analyzer
disabled. -/
theorem C8_witness :
    (∀ c ∈ [exCand], c.score = 0) ∧ (∀ c ∈ [exCand], c.merge_count ≤ exCand.merge_count) :=
  C8_analyzer_disabled_longest_merge_wins [exEntry1] { enableBasicMerge := true } noAnalyzer
    1 1 0 [exCand] exCand rfl (by decide) (by decide)

/-- The digit characters are digits with the expected value and differ
from the separator characters. -/
theorem digitChar_spec (d : Nat) (hd : d ≤ 9) :
    isDigitCh (digitChar d) = true ∧ digitVal (digitChar d) = d ∧
    digitChar d ≠ ':' ∧ digitChar d ≠ ',' := by
  interval_cases d <;> exact ⟨rfl, rfl, by decide, by decide⟩

/-- Numeric bounds of a digit character. -/
theorem isDigitCh_bounds (c : Char) (h : isDigitCh c = true) :
    48 ≤ c.toNat ∧ c.toNat ≤ 57 := by
  simpa [isDigitCh] using h

/-- A digit character is not a colon. -/
theorem isDigitCh_ne_colon (c : Char) (h : isDigitCh c = true) : c ≠ ':' := by
  intro he
  subst he
  exact absurd h (by decide)

/-- A digit character is not a comma. -/
theorem isDigitCh_ne_comma (c : Char) (h : isDigitCh c = true) : c ≠ ',' := by
  intro he
  subst he
  exact absurd h (by decide)

/-- The value of a digit character is below ten. -/
theorem digitVal_le (c : Char) (h : isDigitCh c = true) : digitVal c ≤ 9 := by
  obtain ⟨h1, h2⟩ := isDigitCh_bounds c h
  unfold digitVal
  omega

/-- Rendering the value of a digit character gives the character back. -/
theorem digitChar_digitVal (c : Char) (h : isDigitCh c = true) :
    digitChar (digitVal c) = c := by
  obtain ⟨h1, h2⟩ := isDigitCh_bounds c h
  have hofnat := Char.ofNat_toNat c
  unfold digitVal
  have hcn : c.toNat = 48 + (c.toNat - 48) := by omega
  rw [hcn] at hofnat
  rw [← hofnat]
  have hk9 : c.toNat - 48 ≤ 9 := by omega
  generalize c.toNat - 48 = k at hk9 ⊢
  interval_cases k <;> rfl

/-- splitCh never returns the empty list. -/
theorem splitCh_ne_nil (sep : Char) : ∀ (cs : PyStr), splitCh sep cs ≠ [] := by
  intro cs
  induction cs with
  | nil => simp [splitCh]
  | cons c cs ih =>
    rw [splitCh]
    split
    · simp
    · split
      · simp
      · simp

/-- splitCh on a leading separator emits an empty first part. -/
theorem splitCh_sep_cons (sep : Char) (cs : PyStr) :
    splitCh sep (sep :: cs) = [] :: splitCh sep cs := by
  rw [splitCh, if_pos rfl]

/-- splitCh on a leading non-separator prepends it to the first part. -/
theorem splitCh_cons_ne (sep c : Char) (cs : PyStr) (h : c ≠ sep)
    (r : PyStr) (rs : List PyStr) (hs : splitCh sep cs = r :: rs) :
    splitCh sep (c :: cs) = (c :: r) :: rs := by
  rw [splitCh, if_neg h, hs]

/-- splitCh on a separator-free string is the one-part split. -/
theorem splitCh_all_ne (sep : Char) : ∀ (l : PyStr), (∀ c ∈ l, c ≠ sep) →
    splitCh sep l = [l] := by
  intro l
  induction l with
  | nil => intro _; rfl
  | cons c cs ih =>
    intro h
    exact splitCh_cons_ne sep c cs (h c (List.mem_cons_self _ _)) cs []
      (ih fun x hx => h x (List.mem_cons_of_mem _ hx))

/-- A separator-free prefix joins the first part of the split of the
rest. -/
theorem splitCh_append_ne (sep : Char) : ∀ (p l : PyStr), (∀ c ∈ p, c ≠ sep) →
    ∀ (r : PyStr) (rs : List PyStr), splitCh sep l = r :: rs →
    splitCh sep (p ++ l) = (p ++ r) :: rs := by
  intro p
  induction p with
  | nil => intro l _ r rs hs; simpa using hs
  | cons c cs ih =>
    intro l h r rs hs
    have h2 := ih l (fun x hx => h x (List.mem_cons_of_mem _ hx)) r rs hs
    exact splitCh_cons_ne sep c (cs ++ l) (h c (List.mem_cons_self _ _)) _ _ h2

/-- Value of a two-digit string. -/
theorem digitsVal_pair (a b : Char) :
    digitsVal [a, b] = 10 * digitVal a + digitVal b := by
  simp [digitsVal]
  omega

/-- Value of a three-digit string. -/
theorem digitsVal_triple (a b c : Char) :
    digitsVal [a, b, c] = 100 * digitVal a + 10 * digitVal b + digitVal c := by
  simp [digitsVal]
  omega

/-- Both characters of pad2 are digits. -/
theorem allDigits_pad2 (n : Nat) (h : n ≤ 99) : allDigits (pad2 n) = true := by
  have h1 := (digitChar_spec (n / 10) (by omega)).1
  have h2 := (digitChar_spec (n % 10) (by omega)).1
  simp [pad2, allDigits, h1, h2]

/-- All characters of pad3 are digits. -/
theorem allDigits_pad3 (n : Nat) (h : n ≤ 999) : allDigits (pad3 n) = true := by
  have h1 := (digitChar_spec (n / 100) (by omega)).1
  have h2 := (digitChar_spec (n / 10 % 10) (by omega)).1
  have h3 := (digitChar_spec (n % 10) (by omega)).1
  simp [pad3, allDigits, h1, h2, h3]

/-- pad2 renders the value it was given. -/
theorem digitsVal_pad2 (n : Nat) (h : n ≤ 99) : digitsVal (pad2 n) = n := by
  unfold pad2
  rw [digitsVal_pair, (digitChar_spec (n / 10) (by omega)).2.1,
    (digitChar_spec (n % 10) (by omega)).2.1]
  omega

/-- pad3 renders the value it was given. -/
theorem digitsVal_pad3 (n : Nat) (h : n ≤ 999) : digitsVal (pad3 n) = n := by
  unfold pad3
  rw [digitsVal_triple, (digitChar_spec (n / 100) (by omega)).2.1,
    (digitChar_spec (n / 10 % 10) (by omega)).2.1,
    (digitChar_spec (n % 10) (by omega)).2.1]
  omega

/-- Characters of pad2 are never separators. -/
theorem pad2_ne_sep (n : Nat) (h : n ≤ 99) :
    ∀ c ∈ pad2 n, c ≠ ':' ∧ c ≠ ',' := by
  intro c hc
  have h1 := digitChar_spec (n / 10) (by omega)
  have h2 := digitChar_spec (n % 10) (by omega)
  simp only [pad2, List.mem_cons, List.mem_singleton, List.not_mem_nil, or_false] at hc
  rcases hc with rfl | rfl
  · exact ⟨h1.2.2.1, h1.2.2.2⟩
  · exact ⟨h2.2.2.1, h2.2.2.2⟩

/-- Characters of pad3 are never separators. -/
theorem pad3_ne_sep (n : Nat) (h : n ≤ 999) :
    ∀ c ∈ pad3 n, c ≠ ':' ∧ c ≠ ',' := by
  intro c hc
  have h1 := digitChar_spec (n / 100) (by omega)
  have h2 := digitChar_spec (n / 10 % 10) (by omega)
  have h3 := digitChar_spec (n % 10) (by omega)
  simp only [pad3, List.mem_cons, List.mem_singleton, List.not_mem_nil, or_false] at hc
  rcases hc with rfl | rfl | rfl
  · exact ⟨h1.2.2.1, h1.2.2.2⟩
  · exact ⟨h2.2.2.1, h2.2.2.2⟩
  · exact ⟨h3.2.2.1, h3.2.2.2⟩


/-- One digit is rendered directly when any fuel remains. -/
theorem natReprGo_small (fuel n : Nat) (acc : PyStr) (hn : n < 10) (hf : 1 ≤ fuel) :
    natReprGo fuel n acc = digitChar n :: acc := by
  cases fuel with
  | zero => omega
  | succ f => rw [natReprGo, if_pos hn]

/-- Decimal rendering of a one-digit number. -/
theorem natRepr_eq1 (n : Nat) (h : n ≤ 9) : natRepr n = [digitChar n] := by
  unfold natRepr
  exact natReprGo_small _ _ _ (by omega) (by omega)

/-- Decimal rendering of a two-digit number. -/
theorem natRepr_eq2 (n : Nat) (h1 : 10 ≤ n) (h2 : n ≤ 99) :
    natRepr n = [digitChar (n / 10), digitChar (n % 10)] := by
  unfold natRepr
  rw [natReprGo, if_neg (by omega)]
  exact natReprGo_small _ _ _ (by omega) (by omega)

/-- Decimal rendering of a three-digit number. -/
theorem natRepr_eq3 (n : Nat) (h1 : 100 ≤ n) (h2 : n ≤ 999) :
    natRepr n = [digitChar (n / 100), digitChar (n / 10 % 10), digitChar (n % 10)] := by
  unfold natRepr
  rw [natReprGo, if_neg (by omega)]
  obtain ⟨f, rfl⟩ : ∃ f, n = f + 1 := ⟨n - 1, by omega⟩
  rw [natReprGo, if_neg (by omega)]
  rw [natReprGo_small _ _ _ (by omega) (by omega)]
  rw [Nat.div_div_eq_div_mul]

/-- The Python two-wide zero-padded format of a value below 100 is
pad2. -/
theorem pyFmt2_eq_pad2 (n : Nat) (h : n ≤ 99) : pyFmt 2 (n : Int) = pad2 n := by
  unfold pyFmt
  rw [if_neg (by omega)]
  have htn : ((n : Int)).toNat = n := by omega
  rw [htn]
  rcases Nat.lt_or_ge n 10 with hn | hn
  · rw [natRepr_eq1 n (by omega)]
    unfold leftPad pad2
    have hd : n / 10 = 0 := by omega
    have hm : n % 10 = n := by omega
    rw [hd, hm]
    rfl
  · rw [natRepr_eq2 n hn h]
    unfold leftPad pad2
    rfl

/-- The Python three-wide zero-padded format of a value below 1000 is
pad3. -/
theorem pyFmt3_eq_pad3 (n : Nat) (h : n ≤ 999) : pyFmt 3 (n : Int) = pad3 n := by
  unfold pyFmt
  rw [if_neg (by omega)]
  have htn : ((n : Int)).toNat = n := by omega
  rw [htn]
  rcases Nat.lt_or_ge n 10 with hn | hn
  · rw [natRepr_eq1 n (by omega)]
    unfold leftPad pad3
    have h1 : n / 100 = 0 := by omega
    have h2 : n / 10 % 10 = 0 := by omega
    have h3 : n % 10 = n := by omega
    rw [h1, h2, h3]
    rfl
  · rcases Nat.lt_or_ge n 100 with hn2 | hn2
    · rw [natRepr_eq2 n hn (by omega)]
      unfold leftPad pad3
      have h1 : n / 100 = 0 := by omega
      have h2 : n / 10 % 10 = n / 10 := by omega
      rw [h1, h2]
      rfl
    · rw [natRepr_eq3 n hn2 h]
      unfold leftPad pad3
      rfl

/-- The two splits performed by time_to_ms on an exactly padded
timestamp. -/
theorem split_pads (hN mN sN msN : Nat) (hh : hN ≤ 99) (hm : mN ≤ 99)
    (hs : sN ≤ 99) (hms : msN ≤ 999) :
    splitCh ':' (pad2 hN ++ ':' :: pad2 mN ++ ':' :: pad2 sN ++ ',' :: pad3 msN) =
      [pad2 hN, pad2 mN, pad2 sN ++ ',' :: pad3 msN] ∧
    splitCh ',' (pad2 sN ++ ',' :: pad3 msN) = [pad2 sN, pad3 msN] := by
  have htail : ∀ c ∈ pad2 sN ++ ',' :: pad3 msN, c ≠ ':' := by
    intro c hc
    rcases List.mem_append.mp hc with hc | hc
    · exact (pad2_ne_sep sN hs c hc).1
    · rcases List.mem_cons.mp hc with rfl | hc
      · decide
      · exact (pad3_ne_sep msN hms c hc).1
  have sA := splitCh_all_ne ':' _ htail
  have sB : splitCh ':' (':' :: (pad2 sN ++ ',' :: pad3 msN)) =
      [] :: [pad2 sN ++ ',' :: pad3 msN] := by
    rw [splitCh_sep_cons, sA]
  have sC := splitCh_append_ne ':' (pad2 mN) _
    (fun c hc => (pad2_ne_sep mN hm c hc).1) _ _ sB
  rw [List.append_nil] at sC
  have sD : splitCh ':' (':' :: (pad2 mN ++ ':' :: (pad2 sN ++ ',' :: pad3 msN))) =
      [] :: [pad2 mN, pad2 sN ++ ',' :: pad3 msN] := by
    rw [splitCh_sep_cons, sC]
  have sE := splitCh_append_ne ':' (pad2 hN) _
    (fun c hc => (pad2_ne_sep hN hh c hc).1) _ _ sD
  rw [List.append_nil] at sE
  have cA := splitCh_all_ne ',' (pad3 msN) (fun c hc => (pad3_ne_sep msN hms c hc).2)
  have cB : splitCh ',' (',' :: pad3 msN) = [] :: [pad3 msN] := by
    rw [splitCh_sep_cons, cA]
  have cC := splitCh_append_ne ',' (pad2 sN) _
    (fun c hc => (pad2_ne_sep sN hs c hc).2) _ _ cB
  rw [List.append_nil] at cC
  exact ⟨sE, cC⟩

/-- Claim C3 as stated is false on the code: time_to_ms accepts the
string "0:00:00,000", whose hour field has only one digit and therefore
does not match the exact HH:MM:SS,mmm pattern, instead of raising. -/
theorem C3_counterexample :
    exactPattern ("0:00:00,000".data) = false ∧
    time_to_ms ("0:00:00,000".data) = some 0 := by
  decide

/-- C3 amended: time_to_ms accepts every string the strptime pattern
"%H:%M:%S,%f" accepts, which is broader than the exact HH:MM:SS,mmm
shape (one- or two-digit fields and one to six fractional digits are
allowed); the claimed formula does hold on the exact shape: for every
two-digit-padded in-range hour, minute and second and three-digit
fraction the result is h*3600000 + m*60000 + s*1000 + millis. -/
theorem C3_amended (hN mN sN msN : Nat) (hh : hN ≤ 23) (hm : mN ≤ 59)
    (hs : sN ≤ 59) (hms : msN ≤ 999) :
    time_to_ms (pad2 hN ++ ':' :: pad2 mN ++ ':' :: pad2 sN ++ ',' :: pad3 msN) =
      some (hN * 3600000 + mN * 60000 + sN * 1000 + msN) := by
  obtain ⟨hsp1, hsp2⟩ := split_pads hN mN sN msN (by omega) (by omega) (by omega) hms
  unfold time_to_ms
  rw [hsp1]
  simp only []
  rw [hsp2]
  simp only []
  rw [if_pos]
  · rw [digitsVal_pad2 hN (by omega), digitsVal_pad2 mN (by omega),
      digitsVal_pad2 sN (by omega), digitsVal_pad3 msN hms]
    have hlen : (pad3 msN).length = 3 := rfl
    rw [hlen]
    norm_num
  · refine ⟨allDigits_pad2 hN (by omega), Or.inr ⟨rfl, ?_⟩,
      allDigits_pad2 mN (by omega), Or.inr ⟨rfl, ?_⟩,
      allDigits_pad2 sN (by omega), Or.inr ⟨rfl, ?_⟩,
      allDigits_pad3 msN hms, by norm_num [pad3], by norm_num [pad3]⟩
    · rw [digitsVal_pad2 hN (by omega)]
      omega
    · rw [digitsVal_pad2 mN (by omega)]
      omega
    · rw [digitsVal_pad2 sN (by omega)]
      omega

/-- Witness for C3_amended at the concrete timestamp 01:02:03,004. -/
theorem C3_witness : time_to_ms ("01:02:03,004".data) = some 3723004 := by
  have h := C3_amended 1 2 3 4 (by decide) (by decide) (by decide) (by decide)
  rw [show pad2 1 ++ ':' :: pad2 2 ++ ':' :: pad2 3 ++ ',' :: pad3 4 =
    ("01:02:03,004".data) from by decide] at h
  simpa using h

/-- pad2 inverts digitsVal on a two-digit string. -/
theorem pad2_of_digits (a b : Char) (ha : isDigitCh a = true) (hb : isDigitCh b = true) :
    pad2 (digitsVal [a, b]) = [a, b] := by
  rw [digitsVal_pair]
  unfold pad2
  have hva := digitVal_le a ha
  have hvb := digitVal_le b hb
  have h1 : (10 * digitVal a + digitVal b) / 10 = digitVal a := by omega
  have h2 : (10 * digitVal a + digitVal b) % 10 = digitVal b := by omega
  rw [h1, h2, digitChar_digitVal a ha, digitChar_digitVal b hb]

/-- pad3 inverts digitsVal on a three-digit string. -/
theorem pad3_of_digits (a b c : Char) (ha : isDigitCh a = true) (hb : isDigitCh b = true)
    (hc : isDigitCh c = true) : pad3 (digitsVal [a, b, c]) = [a, b, c] := by
  rw [digitsVal_triple]
  unfold pad3
  have hva := digitVal_le a ha
  have hvb := digitVal_le b hb
  have hvc := digitVal_le c hc
  have h1 : (100 * digitVal a + 10 * digitVal b + digitVal c) / 100 = digitVal a := by omega
  have h2 : (100 * digitVal a + 10 * digitVal b + digitVal c) / 10 % 10 = digitVal b := by omega
  have h3 : (100 * digitVal a + 10 * digitVal b + digitVal c) % 10 = digitVal c := by omega
  rw [h1, h2, h3, digitChar_digitVal a ha, digitChar_digitVal b hb, digitChar_digitVal c hc]

/-- A string matching the exact HH:MM:SS,mmm pattern decomposes into nine
digit characters around the two colons and the comma. -/
theorem exactPattern_decomp (t : PyStr) (h : exactPattern t = true) :
    ∃ a b d e g h2 j k l : Char, t = [a, b, ':', d, e, ':', g, h2, ',', j, k, l] ∧
      isDigitCh a = true ∧ isDigitCh b = true ∧ isDigitCh d = true ∧ isDigitCh e = true ∧
      isDigitCh g = true ∧ isDigitCh h2 = true ∧ isDigitCh j = true ∧ isDigitCh k = true ∧
      isDigitCh l = true := by
  rcases t with _ | ⟨a, t⟩; · exact absurd h (by simp [exactPattern])
  rcases t with _ | ⟨b, t⟩; · exact absurd h (by simp [exactPattern])
  rcases t with _ | ⟨c3, t⟩; · exact absurd h (by simp [exactPattern])
  rcases t with _ | ⟨d, t⟩; · exact absurd h (by simp [exactPattern])
  rcases t with _ | ⟨e, t⟩; · exact absurd h (by simp [exactPattern])
  rcases t with _ | ⟨f3, t⟩; · exact absurd h (by simp [exactPattern])
  rcases t with _ | ⟨g, t⟩; · exact absurd h (by simp [exactPattern])
  rcases t with _ | ⟨h2, t⟩; · exact absurd h (by simp [exactPattern])
  rcases t with _ | ⟨i3, t⟩; · exact absurd h (by simp [exactPattern])
  rcases t with _ | ⟨j, t⟩; · exact absurd h (by simp [exactPattern])
  rcases t with _ | ⟨k, t⟩; · exact absurd h (by simp [exactPattern])
  rcases t with _ | ⟨l, t⟩; · exact absurd h (by simp [exactPattern])
  rcases t with _ | ⟨x, t⟩
  · simp only [exactPattern, Bool.and_eq_true, decide_eq_true_eq] at h
    obtain ⟨⟨⟨⟨⟨⟨⟨⟨⟨⟨⟨ha, hb⟩, hc⟩, hd⟩, he⟩, hf⟩, hg⟩, hh2⟩, hi⟩, hj⟩, hk⟩, hl⟩ := h
    subst hc
    subst hf
    subst hi
    exact ⟨a, b, d, e, g, h2, j, k, l, rfl, ha, hb, hd, he, hg, hh2, hj, hk, hl⟩
  · exact absurd h (by simp [exactPattern])

/-- Claim C4: the codec round-trips on every well-formed exact-shape
timestamp: for any string of the exact HH:MM:SS,mmm pattern that
time_to_ms accepts, converting the resulting milliseconds back with
ms_to_time reproduces the original string. -/
theorem C4_round_trip (t : PyStr) (v : Nat) (hpat : exactPattern t = true)
    (hv : time_to_ms t = some v) : ms_to_time (v : Int) = t := by
  obtain ⟨a, b, d, e, g, h2, j, k, l, rfl, ha, hb, hd, he, hg, hh2, hj, hk, hl⟩ :=
    exactPattern_decomp t hpat
  have htail : ∀ c ∈ ([g, h2, ',', j, k, l] : PyStr), c ≠ ':' := by
    intro c hc
    simp only [List.mem_cons, List.not_mem_nil, or_false] at hc
    rcases hc with rfl | rfl | rfl | rfl | rfl | rfl
    · exact isDigitCh_ne_colon _ hg
    · exact isDigitCh_ne_colon _ hh2
    · decide
    · exact isDigitCh_ne_colon _ hj
    · exact isDigitCh_ne_colon _ hk
    · exact isDigitCh_ne_colon _ hl
  have sA := splitCh_all_ne ':' _ htail
  have sB : splitCh ':' (':' :: ([g, h2, ',', j, k, l] : PyStr)) =
      [] :: [[g, h2, ',', j, k, l]] := by
    rw [splitCh_sep_cons, sA]
  have hde : ∀ c ∈ ([d, e] : PyStr), c ≠ ':' := by
    intro c hc
    simp only [List.mem_cons, List.not_mem_nil, or_false] at hc
    rcases hc with rfl | rfl
    · exact isDigitCh_ne_colon _ hd
    · exact isDigitCh_ne_colon _ he
  have sC := splitCh_append_ne ':' [d, e] _ hde _ _ sB
  have sC2 : splitCh ':' ([d, e, ':', g, h2, ',', j, k, l] : PyStr) =
      [[d, e], [g, h2, ',', j, k, l]] := by simpa using sC
  have sD : splitCh ':' (':' :: ([d, e, ':', g, h2, ',', j, k, l] : PyStr)) =
      [] :: [[d, e], [g, h2, ',', j, k, l]] := by
    rw [splitCh_sep_cons, sC2]
  have hab : ∀ c ∈ ([a, b] : PyStr), c ≠ ':' := by
    intro c hc
    simp only [List.mem_cons, List.not_mem_nil, or_false] at hc
    rcases hc with rfl | rfl
    · exact isDigitCh_ne_colon _ ha
    · exact isDigitCh_ne_colon _ hb
  have sE := splitCh_append_ne ':' [a, b] _ hab _ _ sD
  have sE2 : splitCh ':' ([a, b, ':', d, e, ':', g, h2, ',', j, k, l] : PyStr) =
      [[a, b], [d, e], [g, h2, ',', j, k, l]] := by simpa using sE
  have hjkl : ∀ c ∈ ([j, k, l] : PyStr), c ≠ ',' := by
    intro c hc
    simp only [List.mem_cons, List.not_mem_nil, or_false] at hc
    rcases hc with rfl | rfl | rfl
    · exact isDigitCh_ne_comma _ hj
    · exact isDigitCh_ne_comma _ hk
    · exact isDigitCh_ne_comma _ hl
  have cA := splitCh_all_ne ',' _ hjkl
  have cB : splitCh ',' (',' :: ([j, k, l] : PyStr)) = [] :: [[j, k, l]] := by
    rw [splitCh_sep_cons, cA]
  have hgh : ∀ c ∈ ([g, h2] : PyStr), c ≠ ',' := by
    intro c hc
    simp only [List.mem_cons, List.not_mem_nil, or_false] at hc
    rcases hc with rfl | rfl
    · exact isDigitCh_ne_comma _ hg
    · exact isDigitCh_ne_comma _ hh2
  have cC := splitCh_append_ne ',' [g, h2] _ hgh _ _ cB
  have cC2 : splitCh ',' ([g, h2, ',', j, k, l] : PyStr) = [[g, h2], [j, k, l]] := by
    simpa using cC
  unfold time_to_ms at hv
  rw [sE2] at hv
  simp only [] at hv
  rw [cC2] at hv
  simp only [] at hv
  split at hv
  · rename_i hguard
    obtain ⟨q1, q2, q3, q4, q5, q6, q7, q8, q9⟩ := hguard
    rcases q2 with hbad | ⟨-, hH⟩
    · simp at hbad
    rcases q4 with hbad | ⟨-, hM⟩
    · simp at hbad
    rcases q6 with hbad | ⟨-, hS⟩
    · simp at hbad
    cases hv
    have hva := digitVal_le a ha
    have hvb := digitVal_le b hb
    have hvd := digitVal_le d hd
    have hve := digitVal_le e he
    have hvg := digitVal_le g hg
    have hvh2 := digitVal_le h2 hh2
    have hvj := digitVal_le j hj
    have hvk := digitVal_le k hk
    have hvl := digitVal_le l hl
    have hMSv : digitsVal [j, k, l] ≤ 999 := by
      rw [digitsVal_triple]
      omega
    have hms3 : digitsVal [j, k, l] * 10 ^ (6 - ([j, k, l] : PyStr).length) / 1000 =
        digitsVal [j, k, l] := by
      norm_num
    rw [hms3]
    unfold ms_to_time
    simp only []
    generalize hV : digitsVal [a, b] * 3600000 + digitsVal [d, e] * 60000 +
      digitsVal [g, h2] * 1000 + digitsVal [j, k, l] = V
    have e1 : (V : Int).fdiv 3600000 = ((V / 3600000 : Nat) : Int) := by
      rw [Int.fdiv_eq_ediv _ (by norm_num)]
      omega
    have e2 : (V : Int).fmod 3600000 = ((V % 3600000 : Nat) : Int) := by
      rw [Int.fmod_eq_emod _ (by norm_num)]
      omega
    have e3 : ((V % 3600000 : Nat) : Int).fdiv 60000 = ((V % 3600000 / 60000 : Nat) : Int) := by
      rw [Int.fdiv_eq_ediv _ (by norm_num)]
      omega
    have e4 : ((V % 3600000 : Nat) : Int).fmod 60000 = ((V % 3600000 % 60000 : Nat) : Int) := by
      rw [Int.fmod_eq_emod _ (by norm_num)]
      omega
    have e5 : ((V % 3600000 % 60000 : Nat) : Int).fdiv 1000 =
        ((V % 3600000 % 60000 / 1000 : Nat) : Int) := by
      rw [Int.fdiv_eq_ediv _ (by norm_num)]
      omega
    have e6 : ((V % 3600000 % 60000 : Nat) : Int).fmod 1000 =
        ((V % 3600000 % 60000 % 1000 : Nat) : Int) := by
      rw [Int.fmod_eq_emod _ (by norm_num)]
      omega
    rw [e1, e2, e3, e4, e5, e6]
    have hH2 : V / 3600000 = digitsVal [a, b] := by omega
    have hM2 : V % 3600000 / 60000 = digitsVal [d, e] := by omega
    have hS2 : V % 3600000 % 60000 / 1000 = digitsVal [g, h2] := by omega
    have hMS2 : V % 3600000 % 60000 % 1000 = digitsVal [j, k, l] := by omega
    rw [hH2, hM2, hS2, hMS2]
    rw [pyFmt2_eq_pad2 _ (by omega), pyFmt2_eq_pad2 _ (by omega),
      pyFmt2_eq_pad2 _ (by omega), pyFmt3_eq_pad3 _ (by omega)]
    rw [pad2_of_digits a b ha hb, pad2_of_digits d e hd he,
      pad2_of_digits g h2 hg hh2, pad3_of_digits j k l hj hk hl]
    rfl
  · cases hv

/-- Witness for C4 at the concrete timestamp 01:02:03,456. -/
theorem C4_witness : ms_to_time ((3723456 : Nat) : Int) = "01:02:03,456".data :=
  C4_round_trip ("01:02:03,456".data) 3723456 (by decide) (by decide)

/-- A prefix is no longer than the string it starts. -/
theorem startsList_length (w : PyStr) : ∀ (s : PyStr), startsList w s = true →
    w.length ≤ s.length := by
  induction w with
  | nil => intro s _; simp
  | cons p ps ih =>
    intro s h
    cases s with
    | nil => exact absurd h (by simp [startsList])
    | cons c cs =>
      simp only [startsList, Bool.and_eq_true] at h
      have := ih cs h.2
      simp only [List.length_cons]
      omega

/-- Every list is a prefix of itself. -/
theorem startsList_refl : ∀ (w : PyStr), startsList w w = true := by
  intro w
  induction w with
  | nil => rfl
  | cons p ps ih => simp [startsList, ih]

/-- A nonempty pattern does not occur in the empty string. -/
theorem occCount_nil (w : PyStr) (hw : w ≠ []) : occCount w [] = 0 := by
  cases w with
  | nil => exact absurd rfl hw
  | cons p ps => rfl

/-- A pattern does not occur in a strictly shorter string. -/
theorem occCount_short (w : PyStr) (hw : w ≠ []) : ∀ (s : PyStr),
    s.length < w.length → occCount w s = 0 := by
  intro s
  induction s with
  | nil => intro _; exact occCount_nil w hw
  | cons c cs ih =>
    intro hlen
    rw [occCount]
    rw [if_neg, ih (by simp only [List.length_cons] at hlen ⊢; omega)]
    intro hstart
    have := startsList_length w _ hstart
    omega

/-- A nonempty pattern occurs exactly once in itself. -/
theorem occCount_self (w : PyStr) (hw : w ≠ []) : occCount w w = 1 := by
  cases w with
  | nil => exact absurd rfl hw
  | cons p ps =>
    rw [occCount, if_pos (startsList_refl _), occCount_short (p :: ps) hw ps (by simp)]

/-- Prefix testing ignores everything from a separator character that is
not in the pattern onward. -/
theorem startsList_append_sep (w : PyStr) (c : Char) (hc : c ∉ w) :
    ∀ (x y : PyStr), startsList w (x ++ c :: y) = startsList w x := by
  induction w with
  | nil => intro x y; rfl
  | cons p ps ih =>
    intro x y
    cases x with
    | nil =>
      simp only [List.nil_append, startsList]
      have hpc : (p = c) = False := by
        simp only [eq_iff_iff, iff_false]
        intro he
        exact hc (he ▸ List.mem_cons_self _ _)
      simp [hpc]
    | cons a xs =>
      simp only [List.cons_append, startsList, List.append_eq]
      rw [ih (fun hmem => hc (List.mem_cons_of_mem _ hmem)) xs y]

/-- Occurrence counting distributes over a separator character that is
not in the pattern. -/
theorem occCount_append_sep (w : PyStr) (hw : w ≠ []) (c : Char) (hc : c ∉ w) :
    ∀ (x y : PyStr), occCount w (x ++ c :: y) = occCount w x + occCount w y := by
  intro x
  induction x with
  | nil =>
    intro y
    simp only [List.nil_append]
    rw [occCount_nil w hw, occCount]
    have hs : startsList w (c :: y) = false := by
      have h2 := startsList_append_sep w c hc [] y
      simp only [List.nil_append] at h2
      rw [h2]
      cases w with
      | nil => exact absurd rfl hw
      | cons p ps => rfl
    rw [hs]
    simp
  | cons a xs ih =>
    intro y
    simp only [List.cons_append]
    rw [occCount, occCount]
    have hs : (a :: (xs ++ c :: y)) = ((a :: xs) ++ c :: y) := rfl
    rw [hs, startsList_append_sep w c hc (a :: xs) y, ih y]
    omega

/-- Occurrences of a space-free pattern in a space-join are the summed
occurrences in the parts. -/
theorem occCount_joinSpace (w : PyStr) (hw : w ≠ []) (hsp : ' ' ∉ w) :
    ∀ (ts : List PyStr), occCount w (joinSpace ts) = (ts.map (occCount w)).sum := by
  intro ts
  induction ts with
  | nil => simpa using occCount_nil w hw
  | cons t1 ts ih =>
    cases ts with
    | nil => simp [joinSpace]
    | cons t2 ts2 =>
      rw [joinSpace, occCount_append_sep w hw ' ' hsp t1 (joinSpace (t2 :: ts2)), ih]
      all_goals simp

/-- Splitting a string into words partitions the occurrences of any
nonempty space-free pattern. -/
theorem wordsAux_occ_sum (w : PyStr) (hw : w ≠ [])
    (hsp : ∀ c ∈ w, isPySpace c = false) :
    ∀ (cs acc : PyStr), occCount w (acc.reverse ++ cs) =
      ((wordsAux cs acc).map (occCount w)).sum := by
  have hnotin : ∀ c : Char, isPySpace c = true → c ∉ w := by
    intro c hspc hmem
    rw [hsp c hmem] at hspc
    cases hspc
  intro cs
  induction cs with
  | nil =>
    intro acc
    rw [wordsAux]
    by_cases hacc : acc = []
    · subst hacc
      simpa using occCount_nil w hw
    · rw [if_neg hacc]
      simp
  | cons c cs ih =>
    intro acc
    rw [wordsAux]
    by_cases hspc : isPySpace c = true
    · rw [if_pos hspc]
      by_cases hacc : acc = []
      · subst hacc
        rw [if_pos rfl]
        have h0 : occCount w ((([] : PyStr)).reverse ++ c :: cs) = occCount w cs := by
          have := occCount_append_sep w hw c (hnotin c hspc) [] cs
          simpa [occCount_nil w hw] using this
        rw [h0]
        simpa using ih []
      · rw [if_neg hacc]
        rw [occCount_append_sep w hw c (hnotin c hspc) acc.reverse cs]
        have := ih []
        simp only [List.reverse_nil, List.nil_append] at this
        rw [this]
        simp
    · rw [if_neg hspc]
      have := ih (c :: acc)
      rw [List.reverse_cons, List.append_assoc] at this
      simpa using this

/-- Occurrences of a nonempty space-free pattern in a string are the
summed occurrences in its words. -/
theorem words_occ_sum (w : PyStr) (hw : w ≠ [])
    (hsp : ∀ c ∈ w, isPySpace c = false) (s : PyStr) :
    occCount w s = ((words s).map (occCount w)).sum := by
  have := wordsAux_occ_sum w hw hsp s []
  simpa [words] using this

/-- Words are nonempty and space-free. -/
theorem wordsAux_props : ∀ (cs acc : PyStr), (∀ c ∈ acc, isPySpace c = false) →
    ∀ t ∈ wordsAux cs acc, t ≠ [] ∧ ∀ c ∈ t, isPySpace c = false := by
  intro cs
  induction cs with
  | nil =>
    intro acc hacc t ht
    rw [wordsAux] at ht
    by_cases h0 : acc = []
    · rw [if_pos h0] at ht
      cases ht
    · rw [if_neg h0] at ht
      simp only [List.mem_singleton] at ht
      subst ht
      refine ⟨by simpa using h0, ?_⟩
      intro c hcm
      exact hacc c (List.mem_reverse.mp hcm)
  | cons c cs ih =>
    intro acc hacc t ht
    rw [wordsAux] at ht
    by_cases hspc : isPySpace c = true
    · rw [if_pos hspc] at ht
      by_cases h0 : acc = []
      · rw [if_pos h0] at ht
        exact ih [] (by simp) t ht
      · rw [if_neg h0] at ht
        rcases List.mem_cons.mp ht with rfl | ht
        · refine ⟨by simpa using h0, ?_⟩
          intro x hxm
          exact hacc x (List.mem_reverse.mp hxm)
        · exact ih [] (by simp) t ht
    · rw [if_neg hspc] at ht
      refine ih (c :: acc) ?_ t ht
      intro x hxm
      rcases List.mem_cons.mp hxm with rfl | hxm
      · simpa using hspc
      · exact hacc x hxm

/-- Words of a string are nonempty and space-free. -/
theorem words_props (s : PyStr) : ∀ t ∈ words s, t ≠ [] ∧
    ∀ c ∈ t, isPySpace c = false :=
  wordsAux_props s [] (by simp)

/-- A space-join of nonempty parts is nonempty. -/
theorem joinSpace_ne_nil : ∀ (ts : List PyStr), ts ≠ [] → (∀ t ∈ ts, t ≠ []) →
    joinSpace ts ≠ [] := by
  intro ts
  cases ts with
  | nil => intro h _; exact absurd rfl h
  | cons t1 ts2 =>
    intro _ hne
    cases ts2 with
    | nil => exact hne t1 (List.mem_cons_self _ _)
    | cons t2 ts3 =>
      rw [joinSpace]
      all_goals simp

/-- Claim C9 as stated is false on the code when space merging is
disabled: the entries "x aa" and "aa a" share the boundary word "aa",
which occurs exactly once in each text, the gap is within the threshold,
and the merger emits one entry with the second end time, but the direct
concatenation "x aa"+"a" = "x aaa" contains the boundary word at two
positions, not exactly one. -/
theorem C9_counterexample :
    occCount ("aa".data) ("x aa".data) = 1 ∧
    occCount ("aa".data) ("aa a".data) = 1 ∧
    (words ("x aa".data)).getLast? = some ("aa".data) ∧
    (words ("aa a".data)).head? = some ("aa".data) ∧
    merge_end_start_entries
      [{ start_time := some ("00:00:00,000".data), end_time := some ("00:00:01,000".data),
         text := some ("x aa".data) },
       { start_time := some ("00:00:01,100".data), end_time := some ("00:00:02,000".data),
         text := some ("aa a".data) }] 300 false 50 false =
      some [{ start_time := some ("00:00:00,000".data), end_time := some ("00:00:02,000".data),
              text := some ("x aaa".data) }] ∧
    occCount ("aa".data) ("x aaa".data) = 2 := by
  refine ⟨by decide, by decide, by decide, by decide, ?_, by decide⟩
  unfold merge_end_start_entries
  rw [boundaryLoop_cons_eq 300 false _ _
    ({ start_time := some ("00:00:00,000".data), end_time := some ("00:00:02,000".data),
       text := some ("x aaa".data) }) [] (by decide), boundaryLoop_nil]

/-- C9 amended: the boundary-merge behaviour the claim describes holds
with space merging enabled: two consecutive entries within the gap whose
texts share the boundary word w exactly once each merge into a single
entry that ends at the second entry's end time and contains exactly one
occurrence of w.  (With space merging disabled the concatenation without
a separator can create an extra overlapping occurrence of w, as the
counterexample shows.) -/
theorem C9_amended (A B : SubtitleEntry) (maxGap mtl : Int) (jp : Bool)
    (aet bst bet at2 bt w : PyStr) (aem bsm : Nat)
    (hAe : A.end_time = some aet) (hAem : time_to_ms aet = some aem)
    (hBs : B.start_time = some bst) (hBsm : time_to_ms bst = some bsm)
    (hgap : ¬ ((bsm : Int) - (aem : Int) > maxGap))
    (hAt : A.text = some at2) (hBt : B.text = some bt)
    (hBe : B.end_time = some bet)
    (hlast : (words (strip at2)).getLast? = some w)
    (hhead : (words (strip bt)).head? = some w)
    (hoccA : occCount w (strip at2) = 1)
    (hoccB : occCount w (strip bt) = 1) :
    ∃ mtext : PyStr,
      merge_end_start_entries [A, B] maxGap true mtl jp =
        some [{ A with end_time := some bet, text := some mtext }] ∧
      occCount w mtext = 1 := by
  obtain ⟨ns, hnwq⟩ : ∃ ns, words (strip bt) = w :: ns := by
    cases hq : words (strip bt) with
    | nil => rw [hq] at hhead; cases hhead
    | cons n0 ns =>
      rw [hq] at hhead
      simp only [List.head?] at hhead
      exact ⟨ns, by rw [Option.some.inj hhead]⟩
  have hwmem : w ∈ words (strip bt) := by rw [hnwq]; exact List.mem_cons_self _ _
  obtain ⟨hwne, hwsp⟩ := words_props (strip bt) w hwmem
  have hnospace : ' ' ∉ w := by
    intro hmem
    have := hwsp ' ' hmem
    exact absurd this (by simp [isPySpace])
  have hcw : words (strip at2) ≠ [] := by
    intro h0
    rw [h0] at hlast
    cases hlast
  have hnwne : words (strip bt) ≠ [] := by rw [hnwq]; simp
  have hcond : ¬ (words (strip at2) = [] ∨ words (strip bt) = [] ∨
      (words (strip at2)).getLast? ≠ (words (strip bt)).head?) := by
    push_neg
    exact ⟨hcw, hnwne, by rw [hlast, hhead]⟩
  have hsum : (List.map (occCount w) ns).sum = 0 := by
    have hws := words_occ_sum w hwne hwsp (strip bt)
    rw [hnwq] at hws
    simp only [List.map_cons, List.sum_cons] at hws
    rw [occCount_self w hwne] at hws
    omega
  have hremocc : occCount w (joinSpace ns) = 0 := by
    rw [occCount_joinSpace w hwne hnospace ns, hsum]
  have htokens : ∀ tok ∈ ns, tok ≠ [] := by
    intro tok htok
    exact (words_props (strip bt) tok (by rw [hnwq]; exact List.mem_cons_of_mem _ htok)).1
  by_cases hlen : 1 < (words (strip bt)).length
  · have hns : ns ≠ [] := by
      rw [hnwq] at hlen
      simp only [List.length_cons] at hlen
      intro h0
      rw [h0] at hlen
      simp at hlen
    have hremne : joinSpace (words (strip bt)).tail ≠ [] := by
      rw [hnwq]
      exact joinSpace_ne_nil ns hns htokens
    refine ⟨strip at2 ++ ' ' :: joinSpace (words (strip bt)).tail, ?_, ?_⟩
    · unfold merge_end_start_entries
      have hext : boundaryExtend maxGap true A [B] = some
          ({ A with
             end_time := some bet,
             text := some (strip at2 ++ ' ' :: joinSpace (words (strip bt)).tail) }, []) := by
        rw [boundaryExtend]
        simp only [hAe, hAem, hBs, hBsm]
        rw [if_neg hgap]
        simp only [hAt, hBt]
        rw [if_neg hcond]
        simp only [hBe]
        simp only [if_pos hlen]
        rw [if_pos ⟨trivial, hremne⟩]
        rw [boundaryExtend]
        simp
      rw [boundaryLoop_cons_eq _ _ _ _ _ _ hext, boundaryLoop_nil]
    · rw [occCount_append_sep w hwne ' ' hnospace, hoccA, hnwq]
      show 1 + occCount w (joinSpace ns) = 1
      rw [hremocc]
  · have hns : ns = [] := by
      rw [hnwq] at hlen
      simp only [List.length_cons, not_lt] at hlen
      cases ns with
      | nil => rfl
      | cons x xs => simp at hlen
    refine ⟨strip at2, ?_, ?_⟩
    · unfold merge_end_start_entries
      have hext : boundaryExtend maxGap true A [B] = some
          ({ A with end_time := some bet, text := some (strip at2) }, []) := by
        rw [boundaryExtend]
        simp only [hAe, hAem, hBs, hBsm]
        rw [if_neg hgap]
        simp only [hAt, hBt]
        rw [if_neg hcond]
        simp only [hBe]
        rw [if_neg hlen]
        rw [if_neg (by simp)]
        rw [boundaryExtend]
        simp
      rw [boundaryLoop_cons_eq _ _ _ _ _ _ hext, boundaryLoop_nil]
    · exact hoccA

/-- Witness for C9_amended at a concrete input: "x end" and "end y" with
space merging enabled merge into one entry containing exactly one
occurrence of the boundary word "end". -/
theorem C9_witness :
    ∃ mtext : PyStr,
      merge_end_start_entries
        [{ start_time := some ("00:00:00,000".data), end_time := some ("00:00:01,000".data),
           text := some ("x end".data) },
         { start_time := some ("00:00:01,100".data), end_time := some ("00:00:02,000".data),
           text := some ("end y".data) }] 300 true 50 false =
        some [{ start_time := some ("00:00:00,000".data), end_time := some ("00:00:02,000".data),
                text := some mtext }] ∧
      occCount ("end".data) mtext = 1 := by
  have h := C9_amended
    { start_time := some ("00:00:00,000".data), end_time := some ("00:00:01,000".data),
      text := some ("x end".data) }
    { start_time := some ("00:00:01,100".data), end_time := some ("00:00:02,000".data),
      text := some ("end y".data) }
    300 50 false
    ("00:00:01,000".data) ("00:00:01,100".data) ("00:00:02,000".data)
    ("x end".data) ("end y".data) ("end".data) 1000 1100
    rfl (by decide) rfl (by decide) (by decide) rfl rfl rfl
    (by decide) (by decide) (by decide) (by decide)
  exact h

end SrtMerge
